import Mathlib

/-!
Verification development for the galaxy_ast_docs core: the MeTTa DSL lexer
(`metta_parser.py`, class MeTTaLexer), the recursive-descent MeTTa parser
(class MeTTaParser), the definitions extractors (`traversal_layer.py`),
the directory walker (`walker.py` together with `language_layer.py`) and the
tree-to-graph builder (`generate_ast_docs.py`).

Source text is modelled as `List Char`; Python strings become `String` or
`List Char`; fallible code returns `Except String`; the mutually recursive
parser methods become a single function structurally recursive on a fuel
argument (one constructor of `PCall` per Python method), with a proved
sufficiency lemma showing the fuel bound used by the top entry point never
runs out.
-/

/-! ## Lexer (metta_parser.py, MeTTaLexer)

The Python lexer is one big alternation regex tried left-to-right at each
position (`re.finditer`); the first alternative of `TOKEN_PATTERNS` that
matches at the current position wins, each alternative being greedy and, for
these particular patterns, deterministic.  A position where no alternative
matches is silently skipped by `finditer`.  Each matcher below returns the
number of characters the corresponding regex consumes at the head of the
input, or `none` when the regex does not match there. -/

/-- Token kinds, named exactly after `MeTTaLexer.TOKEN_PATTERNS`. -/
inductive TokType where
  | COMMENT | EXECUTE | LPAREN | RPAREN | LBRACKET | RBRACKET
  | ATOMESPACE | VARIABLE | STRING | NUMBER | EQUALS | OPERATOR | ATOM
  | WHITESPACE | NEWLINE
deriving DecidableEq, Repr

/-- Regex class `[a-zA-Z_]` (ASCII, matching Python's `re` on these patterns). -/
def isNameStart (c : Char) : Bool := c.isAlpha || c = '_'

/-- Regex class `[a-zA-Z0-9_-]`. -/
def isNameChar (c : Char) : Bool := c.isAlpha || c.isDigit || c = '_' || c = '-'

/-- Regex class `[+\-*/><!=]` of the OPERATOR pattern. -/
def isOpChar (c : Char) : Bool :=
  c = '+' || c = '-' || c = '*' || c = '/' || c = '>' || c = '<' || c = '!' || c = '='

/-- Regex class `[ \t]` of the WHITESPACE pattern. -/
def isWsChar (c : Char) : Bool := c = ' ' || c = '\t'

/-- Length of the longest run of characters satisfying `p` at the head. -/
def lenWhile (p : Char → Bool) (s : List Char) : Nat := (s.takeWhile p).length

/-- Pattern `;[^\n]*`. -/
def matchCOMMENT : List Char → Option Nat
  | ';' :: r => some (1 + lenWhile (fun c => !(c = '\n')) r)
  | _ => none

/-- Pattern `!`. -/
def matchEXECUTE : List Char → Option Nat
  | '!' :: _ => some 1
  | _ => none

/-- Single-character pattern such as `\(`. -/
def matchChar (ch : Char) : List Char → Option Nat
  | c :: _ => if c = ch then some 1 else none
  | _ => none

/-- Pattern `&[a-zA-Z_][a-zA-Z0-9_-]*`. -/
def matchATOMESPACE : List Char → Option Nat
  | '&' :: c :: r => if isNameStart c then some (2 + lenWhile isNameChar r) else none
  | _ => none

/-- Pattern `\$[a-zA-Z_][a-zA-Z0-9_-]*`. -/
def matchVARIABLE : List Char → Option Nat
  | '$' :: c :: r => if isNameStart c then some (2 + lenWhile isNameChar r) else none
  | _ => none

/-- Consumption of `([^"\\]|\\.)*"` after the opening quote: the starred group
cannot cross an unescaped quote and `\\.` does not match a newline after the
backslash, so the regex engine's behavior is deterministic. -/
def strTail : List Char → Option Nat
  | [] => none
  | '"' :: _ => some 1
  | '\\' :: c :: r => if c = '\n' then none else (strTail r).map (2 + ·)
  | _ :: r => (strTail r).map (1 + ·)

/-- Pattern `"([^"\\]|\\.)*"`. -/
def matchSTRING : List Char → Option Nat
  | '"' :: r => (strTail r).map (1 + ·)
  | _ => none

/-- Digits-and-fraction part of the NUMBER pattern, after the optional sign
consumed `neg` characters: at least one digit, then `.` digits only when at
least one digit follows the dot (the greedy optional group backtracks
otherwise). -/
def numTail (neg : Nat) (r : List Char) : Option Nat :=
  if lenWhile Char.isDigit r = 0 then none
  else
    match r.drop (lenWhile Char.isDigit r) with
    | '.' :: r3 =>
      if lenWhile Char.isDigit r3 = 0 then some (neg + lenWhile Char.isDigit r)
      else some (neg + lenWhile Char.isDigit r + 1 + lenWhile Char.isDigit r3)
    | _ => some (neg + lenWhile Char.isDigit r)

/-- Pattern `-?\d+(\.\d+)?`. -/
def matchNUMBER : List Char → Option Nat
  | '-' :: r => numTail 1 r
  | s => numTail 0 s

/-- Pattern `[+\-*/><!=]+`. -/
def matchOPERATOR (s : List Char) : Option Nat :=
  if lenWhile isOpChar s = 0 then none else some (lenWhile isOpChar s)

/-- Pattern `[a-zA-Z_][a-zA-Z0-9_-]*[!]?`. -/
def matchATOM : List Char → Option Nat
  | c :: r =>
    if isNameStart c then
      match r.drop (lenWhile isNameChar r) with
      | '!' :: _ => some (1 + lenWhile isNameChar r + 1)
      | _ => some (1 + lenWhile isNameChar r)
    else none
  | _ => none

/-- Pattern `[ \t]+`. -/
def matchWHITESPACE (s : List Char) : Option Nat :=
  if lenWhile isWsChar s = 0 then none else some (lenWhile isWsChar s)

/-- First alternative of the combined regex that matches at the head of `s`,
in the exact order of `TOKEN_PATTERNS`, with the number of characters it
consumes. -/
def matchTok (s : List Char) : Option (TokType × Nat) :=
  match matchCOMMENT s with
  | some n => some (TokType.COMMENT, n)
  | none =>
  match matchEXECUTE s with
  | some n => some (TokType.EXECUTE, n)
  | none =>
  match matchChar '(' s with
  | some n => some (TokType.LPAREN, n)
  | none =>
  match matchChar ')' s with
  | some n => some (TokType.RPAREN, n)
  | none =>
  match matchChar '[' s with
  | some n => some (TokType.LBRACKET, n)
  | none =>
  match matchChar ']' s with
  | some n => some (TokType.RBRACKET, n)
  | none =>
  match matchATOMESPACE s with
  | some n => some (TokType.ATOMESPACE, n)
  | none =>
  match matchVARIABLE s with
  | some n => some (TokType.VARIABLE, n)
  | none =>
  match matchSTRING s with
  | some n => some (TokType.STRING, n)
  | none =>
  match matchNUMBER s with
  | some n => some (TokType.NUMBER, n)
  | none =>
  match matchChar '=' s with
  | some n => some (TokType.EQUALS, n)
  | none =>
  match matchOPERATOR s with
  | some n => some (TokType.OPERATOR, n)
  | none =>
  match matchATOM s with
  | some n => some (TokType.ATOM, n)
  | none =>
  match matchWHITESPACE s with
  | some n => some (TokType.WHITESPACE, n)
  | none =>
  match matchChar '\n' s with
  | some n => some (TokType.NEWLINE, n)
  | none => none

/-- One scan step of `finditer`: either a regex match (kind and text) or a
single character skipped because no alternative matches at its position. -/
inductive Seg where
  | tok (kind : TokType) (text : List Char)
  | skip (c : Char)
deriving DecidableEq, Repr

/-- Scan of the input into segments.  `fuel` only bounds the number of steps;
`lexSegs s.length s` performs the complete scan, since every step consumes at
least one character — see `matchTok_pos`. -/
def lexSegs : Nat → List Char → List Seg
  | 0, _ => []
  | _, [] => []
  | fuel + 1, c :: r =>
    match matchTok (c :: r) with
    | some (k, n) => Seg.tok k ((c :: r).take n) :: lexSegs fuel ((c :: r).drop n)
    | none => Seg.skip c :: lexSegs fuel r

/-- Segments of the whole input. -/
def lexerSegments (s : List Char) : List Seg := lexSegs s.length s

/-- Text of a segment. -/
def Seg.text : Seg → List Char
  | .tok _ t => t
  | .skip c => [c]

/-- Concatenated text of all segments. -/
def segsText (l : List Seg) : List Char := (l.map Seg.text).flatten

/-- Token structure of `MeTTaToken` (type, value, line, column). -/
structure MeTTaToken where
  type : TokType
  value : String
  line : Nat
  column : Nat
deriving DecidableEq, Repr

/-- Token emission of `MeTTaLexer.tokenize`: NEWLINE advances the line counter
and records the new line origin, WHITESPACE is discarded, every other match
becomes a token whose column is its offset from the last newline; skipped
characters only advance the position. -/
def segsToToks : List Seg → Nat → Nat → Nat → List MeTTaToken
  | [], _, _, _ => []
  | .tok .NEWLINE t :: rest, pos, line, _ =>
    segsToToks rest (pos + t.length) (line + 1) (pos + t.length)
  | .tok .WHITESPACE t :: rest, pos, line, ls =>
    segsToToks rest (pos + t.length) line ls
  | .tok k t :: rest, pos, line, ls =>
    ⟨k, String.mk t, line, pos - ls⟩ :: segsToToks rest (pos + t.length) line ls
  | .skip _ :: rest, pos, line, ls => segsToToks rest (pos + 1) line ls

/-- Embedding of `MeTTaLexer.tokenize`. -/
def tokenize (code : List Char) : List MeTTaToken :=
  segsToToks (lexerSegments code) 0 1 0

-- sanity checks of the lexer on concrete inputs
example : tokenize "(Bob parent Alex)".toList =
    [⟨.LPAREN, "(", 1, 0⟩, ⟨.ATOM, "Bob", 1, 1⟩, ⟨.ATOM, "parent", 1, 5⟩,
     ⟨.ATOM, "Alex", 1, 12⟩, ⟨.RPAREN, ")", 1, 16⟩] := by decide

example : tokenize "!(foo 1 2)".toList =
    [⟨.EXECUTE, "!", 1, 0⟩, ⟨.LPAREN, "(", 1, 1⟩, ⟨.ATOM, "foo", 1, 2⟩,
     ⟨.NUMBER, "1", 1, 6⟩, ⟨.NUMBER, "2", 1, 8⟩, ⟨.RPAREN, ")", 1, 9⟩] := by decide

example : tokenize "@".toList = [] := by decide

/-! ## AST nodes (metta_parser.py, MeTTaNode)

Node kinds are strings, as in the Python source.  The derived
`start_point`/`end_point` pairs are always `(line - 1, 0)`/`(end_line - 1, 0)`
and are not stored separately. -/

/-- Embedding of `MeTTaNode` (type, value, start line, end line, children). -/
inductive MeTTaNode where
  | mk (type : String) (value : String) (line : Nat) (endLine : Nat)
       (children : List MeTTaNode)
deriving Repr

/-- Structural induction for the nested inductive `MeTTaNode`, with the
hypothesis available for every child. -/
theorem MeTTaNode.strongInd (P : MeTTaNode → Prop)
    (h : ∀ t v l e cs, (∀ c ∈ cs, P c) → P (MeTTaNode.mk t v l e cs)) :
    ∀ n, P n := by
  intro n
  refine MeTTaNode.rec (motive_1 := fun n => P n) (motive_2 := fun l => ∀ c ∈ l, P c)
    ?_ ?_ ?_ n
  · intro t v l e cs ih
    exact h t v l e cs ih
  · intro c hc
    cases hc
  · intro hd tl h1 h2 c hc
    cases hc with
    | head => exact h1
    | tail _ hm => exact h2 c hm

/-- Boolean equality on nodes (childwise). -/
def MeTTaNode.beq : MeTTaNode → MeTTaNode → Bool
  | .mk t v l e cs, .mk t' v' l' e' cs' =>
    decide (t = t') && decide (v = v') && decide (l = l') && decide (e = e') && go cs cs'
where go : List MeTTaNode → List MeTTaNode → Bool
  | [], [] => true
  | a :: as, b :: bs => MeTTaNode.beq a b && go as bs
  | _, _ => false

theorem MeTTaNode.beq_iff : ∀ a b : MeTTaNode, MeTTaNode.beq a b = true ↔ a = b := by
  have main : ∀ a : MeTTaNode, ∀ b, MeTTaNode.beq a b = true ↔ a = b := by
    refine MeTTaNode.strongInd _ ?_
    intro t v l e cs ih b
    cases b with
    | mk t' v' l' e' cs' =>
      have hgo : ∀ cs₁ cs₂ : List MeTTaNode,
          (∀ c ∈ cs₁, ∀ b, MeTTaNode.beq c b = true ↔ c = b) →
          (MeTTaNode.beq.go cs₁ cs₂ = true ↔ cs₁ = cs₂) := by
        intro cs₁
        induction cs₁ with
        | nil =>
          intro cs₂ _
          cases cs₂ <;> simp [MeTTaNode.beq.go]
        | cons a as ihl =>
          intro cs₂ hmem
          cases cs₂ with
          | nil => simp [MeTTaNode.beq.go]
          | cons b bs =>
            simp only [MeTTaNode.beq.go, Bool.and_eq_true]
            rw [hmem a (by simp) b, ihl bs (fun c hc => hmem c (by simp [hc]))]
            simp
      simp only [MeTTaNode.beq, Bool.and_eq_true, decide_eq_true_eq]
      rw [hgo cs cs' ih]
      constructor
      · rintro ⟨⟨⟨⟨h1, h2⟩, h3⟩, h4⟩, h5⟩
        subst h1; subst h2; subst h3; subst h4; subst h5; rfl
      · intro hEq
        cases hEq
        simp
  exact main

instance : DecidableEq MeTTaNode := fun a b =>
  decidable_of_iff (MeTTaNode.beq a b = true) (MeTTaNode.beq_iff a b)

/-- Node kind string. -/
def MeTTaNode.type : MeTTaNode → String
  | .mk t _ _ _ _ => t

/-- Node value string. -/
def MeTTaNode.value : MeTTaNode → String
  | .mk _ v _ _ _ => v

/-- Node start line. -/
def MeTTaNode.line : MeTTaNode → Nat
  | .mk _ _ l _ _ => l

/-- Node end line. -/
def MeTTaNode.endLine : MeTTaNode → Nat
  | .mk _ _ _ e _ => e

/-- Node children. -/
def MeTTaNode.children : MeTTaNode → List MeTTaNode
  | .mk _ _ _ _ cs => cs

/-- Constructor call `MeTTaNode(type, value, line)`: `end_line` defaults to
`line` (`end_line or line` with `end_line = None`). -/
def mkNode (t v : String) (line : Nat) : MeTTaNode := .mk t v line line []

/-- Constructor call `MeTTaNode(type, value, line, end_line)` with an explicit
end line; Python's `end_line or line` turns a zero argument into `line`. -/
def mkNodeE (t v : String) (line endLine : Nat) : MeTTaNode :=
  .mk t v line (if endLine = 0 then line else endLine) []

/-- Method `MeTTaNode.add_child`: append the child and raise `end_line` to the
child's end line when the child ends later. -/
def addChild : MeTTaNode → MeTTaNode → MeTTaNode
  | .mk t v l e cs, c => .mk t v l (if e < c.endLine then c.endLine else e) (cs ++ [c])

/-- Assignment `result.end_line = end_token.line` performed when a closing
parenthesis is consumed. -/
def setEndLine : MeTTaNode → Nat → MeTTaNode
  | .mk t v l _ cs, e => .mk t v l e cs

/-- Python `str.strip()` (both ends, Python's default whitespace set). -/
def pyStrip (s : String) : String :=
  let ws : Char → Bool := fun c =>
    c = ' ' || c = '\t' || c = '\n' || c = '\r' || c = '\x0b' || c = '\x0c'
  String.mk (((s.toList.dropWhile ws).reverse.dropWhile ws).reverse)

/-- Code-point lexicographic comparison on character lists (`str.__lt__`). -/
def charListLt : List Char → List Char → Bool
  | [], [] => false
  | [], _ :: _ => true
  | _ :: _, [] => false
  | a :: as, b :: bs => if a < b then true else if b < a then false else charListLt as bs

/-- String `≤` by code points, written on character lists so that it
evaluates in the kernel; agrees with Python string comparison. -/
def nameLe (a b : String) : Bool := !(charListLt b.toList a.toList)

/-- `name.startswith('.')`. -/
def hiddenName (s : String) : Bool :=
  match s.toList with
  | c :: _ => c = '.'
  | [] => false

/-- Method `MeTTaParser._parse_atom` applied to the consumed token. -/
def parseAtom (t : MeTTaToken) : MeTTaNode :=
  match t.type with
  | .VARIABLE => mkNode "variable" t.value t.line
  | .ATOMESPACE => mkNode "atomespace" t.value t.line
  | .STRING => mkNode "string" t.value t.line
  | .NUMBER => mkNode "number" t.value t.line
  | .OPERATOR => mkNode "operator" t.value t.line
  | .ATOM => mkNode "atom" t.value t.line
  | _ => mkNode "unknown" t.value t.line

/-! ## Parser (metta_parser.py, MeTTaParser)

Each mutually recursive Python method becomes one constructor of `PCall`; the
single function `run` is structurally recursive on a fuel argument and
executes one method body per constructor.  `run` returns `none` only when the
fuel runs out, which never happens for the bound used by `parseTokens`
(lemma `run_ok` below); the inner `Option MeTTaNode` is the Python method's
own optional result.  The constructor arguments are the token suffix still to
be consumed, together with data the Python method reads from locals:

* `progLoop root toks` — the `while not self._is_at_end()` loop of `parse`;
* `topLevel toks` — `_parse_top_level` (a comment is handled inline);
* `execution line toks` — `_parse_execution` after consuming `!` at `line`;
* `exprBody startLine toks` — `_parse_expression` after consuming `(`;
* `fnDef startLine toks` — `_parse_function_definition`, `=` not yet consumed;
* `fnSig toks` — `_parse_function_signature` after consuming `(`;
* `sigLoop node toks` / `fdLoop node toks` / `callLoop node toks` — the
  parameter, body and element `while` loops accumulating children on `node`
  (`callLoop` starting from the fresh node is `_parse_function_call`);
* `anyExpr toks` — `_parse_any_expression`. -/

inductive PCall where
  | progLoop (root : MeTTaNode) (toks : List MeTTaToken)
  | topLevel (toks : List MeTTaToken)
  | execution (line : Nat) (toks : List MeTTaToken)
  | exprBody (startLine : Nat) (toks : List MeTTaToken)
  | fnDef (startLine : Nat) (toks : List MeTTaToken)
  | fnSig (toks : List MeTTaToken)
  | sigLoop (node : MeTTaNode) (toks : List MeTTaToken)
  | fdLoop (node : MeTTaNode) (toks : List MeTTaToken)
  | callLoop (node : MeTTaNode) (toks : List MeTTaToken)
  | anyExpr (toks : List MeTTaToken)

/-- Token suffix a call works on. -/
def PCall.toks : PCall → List MeTTaToken
  | .progLoop _ ts => ts
  | .topLevel ts => ts
  | .execution _ ts => ts
  | .exprBody _ ts => ts
  | .fnDef _ ts => ts
  | .fnSig ts => ts
  | .sigLoop _ ts => ts
  | .fdLoop _ ts => ts
  | .callLoop _ ts => ts
  | .anyExpr ts => ts

/-- Interpreter of the parser methods.  Faithful transcription of
`MeTTaParser`; see the field-by-field comments. -/
def run : Nat → PCall → Option (Option MeTTaNode × List MeTTaToken)
  | 0, _ => none
  | fuel + 1, c =>
    match c with
    | .progLoop root toks =>
      match toks with
      | [] => some (some root, [])
      | _ :: _ =>
        match run fuel (.topLevel toks) with
        | none => none
        | some (res, rest) =>
          let root' := match res with
            | some n => addChild root n
            | none => root
          run fuel (.progLoop root' rest)
    | .topLevel toks =>
      match toks with
      | [] => some (none, [])
      | t :: rest =>
        match t.type with
        | .COMMENT => some (some (mkNode "comment" (pyStrip t.value) t.line), rest)
        | .EXECUTE => run fuel (.execution t.line rest)
        | .LPAREN => run fuel (.exprBody t.line rest)
        | _ => some (none, rest)
    | .execution line toks =>
      match toks with
      | lp :: rest =>
        if lp.type = .LPAREN then
          match run fuel (.exprBody lp.line rest) with
          | none => none
          | some (some expr, rest') =>
            some (some (addChild (mkNodeE "execution" "!" line expr.endLine) expr), rest')
          | some (none, rest') =>
            some (some (mkNode "execution" "!" line), rest')
        else some (some (mkNode "execution" "!" line), toks)
      | [] => some (some (mkNode "execution" "!" line), [])
    | .exprBody startLine toks =>
      match toks with
      | [] => some (some (mkNode "empty_expression" "" startLine), [])
      | t :: rest =>
        if t.type = .RPAREN then
          some (some (mkNode "empty_expression" "" startLine), rest)
        else
          let inner := if t.type = .EQUALS then run fuel (.fnDef startLine toks)
                       else run fuel (.callLoop (mkNode "expression" "" startLine) toks)
          match inner with
          | none => none
          | some (res, rest') =>
            match rest' with
            | e :: rest'' =>
              if e.type = .RPAREN then
                some (res.map (setEndLine · e.line), rest'')
              else some (res, rest')
            | [] => some (res, [])
    | .fnDef startLine toks =>
      let toks1 := toks.tail
      let base := mkNode "function_definition" "" startLine
      match toks1 with
      | lp :: rest =>
        if lp.type = .LPAREN then
          match run fuel (.fnSig rest) with
          | none => none
          | some (sigRes, rest') =>
            let node := match sigRes with
              | some s => addChild base s
              | none => base
            run fuel (.fdLoop node rest')
        else run fuel (.fdLoop base toks1)
      | [] => run fuel (.fdLoop base [])
    | .fnSig toks =>
      match toks with
      | [] => some (none, [])
      | t :: rest =>
        if t.type = .RPAREN then some (none, toks)
        else
          match run fuel (.sigLoop (mkNode "function_signature" t.value t.line) rest) with
          | none => none
          | some (res, rest') =>
            match rest' with
            | e :: rest'' =>
              if e.type = .RPAREN then
                some (res.map (setEndLine · e.line), rest'')
              else some (res, rest')
            | [] => some (res, [])
    | .sigLoop node toks =>
      match toks with
      | [] => some (some node, [])
      | t :: _ =>
        if t.type = .RPAREN then some (some node, toks)
        else
          match run fuel (.anyExpr toks) with
          | none => none
          | some (res, rest') =>
            let node' := match res with
              | some ch => addChild node ch
              | none => node
            run fuel (.sigLoop node' rest')
    | .fdLoop node toks =>
      match toks with
      | [] => some (some node, [])
      | t :: _ =>
        if t.type = .RPAREN then some (some node, toks)
        else
          match run fuel (.anyExpr toks) with
          | none => none
          | some (res, rest') =>
            let node' := match res with
              | some ch => addChild node ch
              | none => node
            run fuel (.fdLoop node' rest')
    | .callLoop node toks =>
      match toks with
      | [] => some (some node, [])
      | t :: _ =>
        if t.type = .RPAREN then some (some node, toks)
        else
          match run fuel (.anyExpr toks) with
          | none => none
          | some (res, rest') =>
            let node' := match res with
              | some ch => addChild node ch
              | none => node
            run fuel (.callLoop node' rest')
    | .anyExpr toks =>
      match toks with
      | [] => some (none, [])
      | t :: rest =>
        if t.type = .LPAREN then run fuel (.exprBody t.line rest)
        else some (some (parseAtom t), rest)

/-- Fuel that always suffices (lemma `run_ok`). -/
def fuelFor (toks : List MeTTaToken) : Nat := 4 * toks.length + 8

/-- Top of `MeTTaParser.parse` after tokenization: the root `program` node is
created at line 1 and top-level forms are attached to it.  The fallback arm is
unreachable by `run_ok`. -/
def parseTokens (toks : List MeTTaToken) : MeTTaNode :=
  match run (fuelFor toks) (.progLoop (mkNode "program" "" 1) toks) with
  | some (some root, _) => root
  | _ => mkNode "program" "" 1

/-- Embedding of `MeTTaParser.parse` on decoded source text (the byte decoding
with `errors='ignore'` is prior to everything modelled here). -/
def parse (code : List Char) : MeTTaNode := parseTokens (tokenize code)

-- sanity checks of the parser on concrete inputs
example : parse "(Bob parent Alex)".toList =
    .mk "program" "" 1 1
      [.mk "expression" "" 1 1
        [mkNode "atom" "Bob" 1, mkNode "atom" "parent" 1, mkNode "atom" "Alex" 1]] := by
  decide

example : parse "(= (double $x) (* $x 2))".toList =
    .mk "program" "" 1 1
      [.mk "function_definition" "" 1 1
        [.mk "function_signature" "double" 1 1 [mkNode "variable" "$x" 1],
         .mk "expression" "" 1 1
           [mkNode "operator" "*" 1, mkNode "variable" "$x" 1, mkNode "number" "2" 1]]] := by
  decide

example : parse "!(foo 1 2)".toList =
    .mk "program" "" 1 1
      [.mk "execution" "!" 1 1
        [.mk "expression" "" 1 1
          [mkNode "atom" "foo" 1, mkNode "number" "1" 1, mkNode "number" "2" 1]]] := by
  decide

/-! ## Termination and progress of the parser

`run_ok`: the fuel bound `4 * length + rank + 1` always suffices; the
remaining tokens form a suffix of the input; and `_parse_top_level` as well as
`_parse_any_expression` consume at least one token whenever tokens remain —
the progress facts behind termination of the Python `while` loops. -/

/-- Rank ordering the methods that call each other on the same token suffix. -/
def PCall.rank : PCall → Nat
  | .anyExpr _ => 0
  | .fnSig _ => 0
  | .sigLoop _ _ => 1
  | .fdLoop _ _ => 1
  | .callLoop _ _ => 1
  | .execution _ _ => 1
  | .fnDef _ _ => 2
  | .exprBody _ _ => 3
  | .topLevel _ => 4
  | .progLoop _ _ => 5

/-- Guaranteed token consumption of a call (positive exactly for the two
methods the loops rely on for progress). -/
def PCall.consMin : PCall → Nat
  | .topLevel (_ :: _) => 1
  | .anyExpr (_ :: _) => 1
  | _ => 0

theorem run_ok : ∀ (fuel : Nat) (c : PCall),
    4 * (PCall.toks c).length + PCall.rank c + 1 ≤ fuel →
    ∃ res rest, run fuel c = some (res, rest) ∧ rest <:+ PCall.toks c ∧
      rest.length + PCall.consMin c ≤ (PCall.toks c).length := by
  intro fuel
  induction fuel with
  | zero => intro c h; omega
  | succ F IH =>
    intro c hbud
    cases c with
    | progLoop root toks =>
      cases toks with
      | nil =>
        exact ⟨some root, [], by simp [run], List.nil_suffix, by simp [PCall.consMin, PCall.toks]⟩
      | cons t ts =>
        simp only [PCall.toks, PCall.rank, List.length_cons] at hbud
        obtain ⟨res1, rest1, hrun1, hsuf1, hlen1⟩ :=
          IH (.topLevel (t :: ts)) (by simp only [PCall.toks, PCall.rank, List.length_cons]; omega)
        simp only [PCall.toks, PCall.consMin, List.length_cons] at hsuf1 hlen1
        cases res1 with
        | none =>
          obtain ⟨res2, rest2, hrun2, hsuf2, hlen2⟩ :=
            IH (.progLoop root rest1) (by simp only [PCall.toks, PCall.rank, List.length_cons]; omega)
          refine ⟨res2, rest2, ?_, ?_, ?_⟩
          · simp only [run, hrun1]; exact hrun2
          · exact hsuf2.trans hsuf1
          · simp only [PCall.toks, PCall.consMin, List.length_cons] at hsuf2 hlen2 ⊢
            have := hsuf2.length_le
            omega
        | some n =>
          obtain ⟨res2, rest2, hrun2, hsuf2, hlen2⟩ :=
            IH (.progLoop (addChild root n) rest1) (by simp only [PCall.toks, PCall.rank, List.length_cons]; omega)
          refine ⟨res2, rest2, ?_, ?_, ?_⟩
          · simp only [run, hrun1]; exact hrun2
          · exact hsuf2.trans hsuf1
          · simp only [PCall.toks, PCall.consMin, List.length_cons] at hsuf2 hlen2 ⊢
            have := hsuf2.length_le
            omega
    | topLevel toks =>
      cases toks with
      | nil =>
        exact ⟨none, [], by simp [run], List.nil_suffix, by simp [PCall.consMin, PCall.toks]⟩
      | cons t ts =>
        simp only [PCall.toks, PCall.rank, List.length_cons] at hbud
        obtain ⟨ty, v, ln, col⟩ := t
        cases ty
        case COMMENT =>
          refine ⟨some (mkNode "comment" (pyStrip v) ln), ts, by simp [run], ?_, ?_⟩
          · exact List.suffix_cons _ _
          · simp [PCall.consMin, PCall.toks]
        case EXECUTE =>
          obtain ⟨res1, rest1, hrun1, hsuf1, hlen1⟩ :=
            IH (.execution ln ts) (by simp only [PCall.toks, PCall.rank, List.length_cons]; omega)
          simp only [PCall.toks, PCall.consMin, List.length_cons] at hsuf1 hlen1
          refine ⟨res1, rest1, ?_, ?_, ?_⟩
          · simp only [run]; exact hrun1
          · exact hsuf1.trans (List.suffix_cons _ _)
          · simp only [PCall.consMin, PCall.toks, List.length_cons]; omega
        case LPAREN =>
          obtain ⟨res1, rest1, hrun1, hsuf1, hlen1⟩ :=
            IH (.exprBody ln ts) (by simp only [PCall.toks, PCall.rank, List.length_cons]; omega)
          simp only [PCall.toks, PCall.consMin, List.length_cons] at hsuf1 hlen1
          refine ⟨res1, rest1, ?_, ?_, ?_⟩
          · simp only [run]; exact hrun1
          · exact hsuf1.trans (List.suffix_cons _ _)
          · simp only [PCall.consMin, PCall.toks, List.length_cons]; omega
        all_goals
          exact ⟨none, ts, by simp [run], List.suffix_cons _ _, by simp [PCall.consMin, PCall.toks]⟩
    | execution line toks =>
      cases toks with
      | nil =>
        exact ⟨some (mkNode "execution" "!" line), [], by simp [run], List.nil_suffix,
          by simp [PCall.consMin, PCall.toks]⟩
      | cons lp rest =>
        simp only [PCall.toks, PCall.rank, List.length_cons] at hbud
        by_cases hlp : lp.type = TokType.LPAREN
        · obtain ⟨res1, rest1, hrun1, hsuf1, hlen1⟩ :=
            IH (.exprBody lp.line rest) (by simp only [PCall.toks, PCall.rank, List.length_cons]; omega)
          simp only [PCall.toks, PCall.consMin, List.length_cons] at hsuf1 hlen1
          cases res1 with
          | none =>
            refine ⟨some (mkNode "execution" "!" line), rest1, ?_, ?_, ?_⟩
            · simp [run, hlp, hrun1]
            · exact hsuf1.trans (List.suffix_cons _ _)
            · simp only [PCall.consMin, PCall.toks, List.length_cons]; omega
          | some expr =>
            refine ⟨some (addChild (mkNodeE "execution" "!" line expr.endLine) expr), rest1,
              ?_, ?_, ?_⟩
            · simp [run, hlp, hrun1]
            · exact hsuf1.trans (List.suffix_cons _ _)
            · simp only [PCall.consMin, PCall.toks, List.length_cons]; omega
        · refine ⟨some (mkNode "execution" "!" line), lp :: rest, ?_, List.suffix_refl _, ?_⟩
          · simp [run, hlp]
          · simp [PCall.consMin, PCall.toks]
    | exprBody startLine toks =>
      cases toks with
      | nil =>
        exact ⟨some (mkNode "empty_expression" "" startLine), [], by simp [run],
          List.nil_suffix, by simp [PCall.consMin, PCall.toks]⟩
      | cons t rest =>
        simp only [PCall.toks, PCall.rank, List.length_cons] at hbud
        by_cases hrp : t.type = TokType.RPAREN
        · refine ⟨some (mkNode "empty_expression" "" startLine), rest, ?_, List.suffix_cons _ _, ?_⟩
          · simp [run, hrp]
          · simp [PCall.consMin, PCall.toks]
        · by_cases heq : t.type = TokType.EQUALS
          · obtain ⟨res1, rest1, hrun1, hsuf1, hlen1⟩ :=
              IH (.fnDef startLine (t :: rest)) (by simp only [PCall.toks, PCall.rank, List.length_cons]; omega)
            simp only [PCall.toks, PCall.consMin, List.length_cons] at hsuf1 hlen1
            cases rest1 with
            | nil =>
              refine ⟨res1, [], ?_, List.nil_suffix, by simp [PCall.consMin, PCall.toks]⟩
              simp [run, hrp, heq, hrun1]
            | cons e rest'' =>
              by_cases hrp2 : e.type = TokType.RPAREN
              · refine ⟨res1.map (setEndLine · e.line), rest'', ?_, ?_, ?_⟩
                · simp [run, hrp, heq, hrun1, hrp2]
                · exact ((List.suffix_cons e rest'').trans hsuf1)
                · have := hsuf1.length_le
                  simp only [PCall.consMin, PCall.toks, List.length_cons] at this ⊢
                  omega
              · refine ⟨res1, e :: rest'', ?_, hsuf1, ?_⟩
                · simp [run, hrp, heq, hrun1, hrp2]
                · have := hsuf1.length_le
                  simp only [PCall.consMin, PCall.toks, List.length_cons] at this ⊢
                  omega
          · obtain ⟨res1, rest1, hrun1, hsuf1, hlen1⟩ :=
              IH (.callLoop (mkNode "expression" "" startLine) (t :: rest))
                (by simp only [PCall.toks, PCall.rank, List.length_cons]; omega)
            simp only [PCall.toks, PCall.consMin, List.length_cons] at hsuf1 hlen1
            cases rest1 with
            | nil =>
              refine ⟨res1, [], ?_, List.nil_suffix, by simp [PCall.consMin, PCall.toks]⟩
              simp [run, hrp, heq, hrun1]
            | cons e rest'' =>
              by_cases hrp2 : e.type = TokType.RPAREN
              · refine ⟨res1.map (setEndLine · e.line), rest'', ?_, ?_, ?_⟩
                · simp [run, hrp, heq, hrun1, hrp2]
                · exact ((List.suffix_cons e rest'').trans hsuf1)
                · have := hsuf1.length_le
                  simp only [PCall.consMin, PCall.toks, List.length_cons] at this ⊢
                  omega
              · refine ⟨res1, e :: rest'', ?_, hsuf1, ?_⟩
                · simp [run, hrp, heq, hrun1, hrp2]
                · have := hsuf1.length_le
                  simp only [PCall.consMin, PCall.toks, List.length_cons] at this ⊢
                  omega
    | fnDef startLine toks =>
      cases toks with
      | nil =>
        simp only [PCall.toks, PCall.rank, List.length_cons] at hbud
        obtain ⟨res1, rest1, hrun1, hsuf1, hlen1⟩ :=
          IH (.fdLoop (mkNode "function_definition" "" startLine) [])
            (by simp only [PCall.toks, PCall.rank, List.length_cons]; omega)
        simp only [PCall.toks, PCall.consMin, List.length_cons] at hsuf1 hlen1
        rw [List.suffix_nil] at hsuf1
        subst hsuf1
        exact ⟨res1, [], by simp only [run, List.tail_nil]; exact hrun1, List.nil_suffix,
          by simp [PCall.consMin, PCall.toks]⟩
      | cons t0 ts0 =>
        simp only [PCall.toks, PCall.rank, List.length_cons] at hbud
        cases ts0 with
        | nil =>
          obtain ⟨res1, rest1, hrun1, hsuf1, hlen1⟩ :=
            IH (.fdLoop (mkNode "function_definition" "" startLine) [])
              (by simp only [PCall.toks, PCall.rank, List.length_cons]; omega)
          simp only [PCall.toks, PCall.consMin, List.length_cons] at hsuf1 hlen1
          rw [List.suffix_nil] at hsuf1
          subst hsuf1
          exact ⟨res1, [], by simp only [run, List.tail_cons]; exact hrun1, List.nil_suffix,
            by simp [PCall.consMin, PCall.toks]⟩
        | cons lp rest =>
          simp only [List.length_cons] at hbud
          by_cases hlp : lp.type = TokType.LPAREN
          · obtain ⟨res1, rest1, hrun1, hsuf1, hlen1⟩ :=
              IH (.fnSig rest) (by simp only [PCall.toks, PCall.rank, List.length_cons]; omega)
            simp only [PCall.toks, PCall.consMin, List.length_cons] at hsuf1 hlen1
            have hb2 : 4 * rest1.length + PCall.rank (.fdLoop (mkNode "function_definition" "" startLine) rest1) + 1 ≤ F := by
              have := hsuf1.length_le
              simp only [PCall.rank]; omega
            cases res1 with
            | none =>
              obtain ⟨res2, rest2, hrun2, hsuf2, hlen2⟩ :=
                IH (.fdLoop (mkNode "function_definition" "" startLine) rest1)
                  (by simpa only [PCall.toks] using hb2)
              simp only [PCall.toks, PCall.consMin, List.length_cons] at hsuf2 hlen2
              refine ⟨res2, rest2, ?_, ?_, ?_⟩
              · simp [run, hlp, hrun1, hrun2]
              · exact ((hsuf2.trans hsuf1).trans (List.suffix_cons _ _)).trans (List.suffix_cons _ _)
              · have h1 := hsuf2.length_le
                have h2 := hsuf1.length_le
                simp only [PCall.consMin, PCall.toks, List.length_cons]; omega
            | some s =>
              obtain ⟨res2, rest2, hrun2, hsuf2, hlen2⟩ :=
                IH (.fdLoop (addChild (mkNode "function_definition" "" startLine) s) rest1)
                  (by simpa only [PCall.toks] using hb2)
              simp only [PCall.toks, PCall.consMin, List.length_cons] at hsuf2 hlen2
              refine ⟨res2, rest2, ?_, ?_, ?_⟩
              · simp [run, hlp, hrun1, hrun2]
              · exact ((hsuf2.trans hsuf1).trans (List.suffix_cons _ _)).trans (List.suffix_cons _ _)
              · have h1 := hsuf2.length_le
                have h2 := hsuf1.length_le
                simp only [PCall.consMin, PCall.toks, List.length_cons]; omega
          · obtain ⟨res1, rest1, hrun1, hsuf1, hlen1⟩ :=
              IH (.fdLoop (mkNode "function_definition" "" startLine) (lp :: rest))
                (by simp only [PCall.toks, PCall.rank, List.length_cons]; omega)
            simp only [PCall.toks, PCall.consMin, List.length_cons] at hsuf1 hlen1
            refine ⟨res1, rest1, ?_, ?_, ?_⟩
            · simp [run, hlp, hrun1]
            · exact hsuf1.trans (List.suffix_cons _ _)
            · have := hsuf1.length_le
              simp only [PCall.consMin, PCall.toks, List.length_cons] at this ⊢; omega
    | fnSig toks =>
      cases toks with
      | nil =>
        exact ⟨none, [], by simp [run], List.nil_suffix, by simp [PCall.consMin, PCall.toks]⟩
      | cons t rest =>
        simp only [PCall.toks, PCall.rank, List.length_cons] at hbud
        by_cases hrp : t.type = TokType.RPAREN
        · exact ⟨none, t :: rest, by simp [run, hrp], List.suffix_refl _,
            by simp [PCall.consMin, PCall.toks]⟩
        · obtain ⟨res1, rest1, hrun1, hsuf1, hlen1⟩ :=
            IH (.sigLoop (mkNode "function_signature" t.value t.line) rest)
              (by simp only [PCall.toks, PCall.rank, List.length_cons]; omega)
          simp only [PCall.toks, PCall.consMin, List.length_cons] at hsuf1 hlen1
          cases rest1 with
          | nil =>
            refine ⟨res1, [], ?_, List.nil_suffix, by simp [PCall.consMin, PCall.toks]⟩
            simp [run, hrp, hrun1]
          | cons e rest'' =>
            by_cases hrp2 : e.type = TokType.RPAREN
            · refine ⟨res1.map (setEndLine · e.line), rest'', ?_, ?_, ?_⟩
              · simp [run, hrp, hrun1, hrp2]
              · exact (((List.suffix_cons e rest'').trans hsuf1).trans (List.suffix_cons _ _))
              · have := hsuf1.length_le
                simp only [PCall.consMin, PCall.toks, List.length_cons] at this ⊢; omega
            · refine ⟨res1, e :: rest'', ?_, hsuf1.trans (List.suffix_cons _ _), ?_⟩
              · simp [run, hrp, hrun1, hrp2]
              · have := hsuf1.length_le
                simp only [PCall.consMin, PCall.toks, List.length_cons] at this ⊢; omega
    | sigLoop node toks =>
      cases toks with
      | nil =>
        exact ⟨some node, [], by simp [run], List.nil_suffix, by simp [PCall.consMin, PCall.toks]⟩
      | cons t ts =>
        simp only [PCall.toks, PCall.rank, List.length_cons] at hbud
        by_cases hrp : t.type = TokType.RPAREN
        · exact ⟨some node, t :: ts, by simp [run, hrp], List.suffix_refl _,
            by simp [PCall.consMin, PCall.toks]⟩
        · obtain ⟨res1, rest1, hrun1, hsuf1, hlen1⟩ :=
            IH (.anyExpr (t :: ts)) (by simp only [PCall.toks, PCall.rank, List.length_cons]; omega)
          simp only [PCall.toks, PCall.consMin, List.length_cons] at hsuf1 hlen1
          have hb2 : ∀ nd, 4 * (PCall.toks (.sigLoop nd rest1)).length + PCall.rank (.sigLoop nd rest1) + 1 ≤ F := by
            intro nd
            simp only [PCall.toks, PCall.rank]
            omega
          cases res1 with
          | none =>
            obtain ⟨res2, rest2, hrun2, hsuf2, hlen2⟩ := IH (.sigLoop node rest1) (hb2 node)
            simp only [PCall.toks, PCall.consMin, List.length_cons] at hsuf2 hlen2
            refine ⟨res2, rest2, ?_, ?_, ?_⟩
            · simp [run, hrp, hrun1, hrun2]
            · exact hsuf2.trans hsuf1
            · have := hsuf2.length_le
              simp only [PCall.consMin, PCall.toks, List.length_cons]; omega
          | some ch =>
            obtain ⟨res2, rest2, hrun2, hsuf2, hlen2⟩ := IH (.sigLoop (addChild node ch) rest1) (hb2 _)
            simp only [PCall.toks, PCall.consMin, List.length_cons] at hsuf2 hlen2
            refine ⟨res2, rest2, ?_, ?_, ?_⟩
            · simp [run, hrp, hrun1, hrun2]
            · exact hsuf2.trans hsuf1
            · have := hsuf2.length_le
              simp only [PCall.consMin, PCall.toks, List.length_cons]; omega
    | fdLoop node toks =>
      cases toks with
      | nil =>
        exact ⟨some node, [], by simp [run], List.nil_suffix, by simp [PCall.consMin, PCall.toks]⟩
      | cons t ts =>
        simp only [PCall.toks, PCall.rank, List.length_cons] at hbud
        by_cases hrp : t.type = TokType.RPAREN
        · exact ⟨some node, t :: ts, by simp [run, hrp], List.suffix_refl _,
            by simp [PCall.consMin, PCall.toks]⟩
        · obtain ⟨res1, rest1, hrun1, hsuf1, hlen1⟩ :=
            IH (.anyExpr (t :: ts)) (by simp only [PCall.toks, PCall.rank, List.length_cons]; omega)
          simp only [PCall.toks, PCall.consMin, List.length_cons] at hsuf1 hlen1
          have hb2 : ∀ nd, 4 * (PCall.toks (.fdLoop nd rest1)).length + PCall.rank (.fdLoop nd rest1) + 1 ≤ F := by
            intro nd
            simp only [PCall.toks, PCall.rank]
            omega
          cases res1 with
          | none =>
            obtain ⟨res2, rest2, hrun2, hsuf2, hlen2⟩ := IH (.fdLoop node rest1) (hb2 node)
            simp only [PCall.toks, PCall.consMin, List.length_cons] at hsuf2 hlen2
            refine ⟨res2, rest2, ?_, ?_, ?_⟩
            · simp [run, hrp, hrun1, hrun2]
            · exact hsuf2.trans hsuf1
            · have := hsuf2.length_le
              simp only [PCall.consMin, PCall.toks, List.length_cons]; omega
          | some ch =>
            obtain ⟨res2, rest2, hrun2, hsuf2, hlen2⟩ := IH (.fdLoop (addChild node ch) rest1) (hb2 _)
            simp only [PCall.toks, PCall.consMin, List.length_cons] at hsuf2 hlen2
            refine ⟨res2, rest2, ?_, ?_, ?_⟩
            · simp [run, hrp, hrun1, hrun2]
            · exact hsuf2.trans hsuf1
            · have := hsuf2.length_le
              simp only [PCall.consMin, PCall.toks, List.length_cons]; omega
    | callLoop node toks =>
      cases toks with
      | nil =>
        exact ⟨some node, [], by simp [run], List.nil_suffix, by simp [PCall.consMin, PCall.toks]⟩
      | cons t ts =>
        simp only [PCall.toks, PCall.rank, List.length_cons] at hbud
        by_cases hrp : t.type = TokType.RPAREN
        · exact ⟨some node, t :: ts, by simp [run, hrp], List.suffix_refl _,
            by simp [PCall.consMin, PCall.toks]⟩
        · obtain ⟨res1, rest1, hrun1, hsuf1, hlen1⟩ :=
            IH (.anyExpr (t :: ts)) (by simp only [PCall.toks, PCall.rank, List.length_cons]; omega)
          simp only [PCall.toks, PCall.consMin, List.length_cons] at hsuf1 hlen1
          have hb2 : ∀ nd, 4 * (PCall.toks (.callLoop nd rest1)).length + PCall.rank (.callLoop nd rest1) + 1 ≤ F := by
            intro nd
            simp only [PCall.toks, PCall.rank]
            omega
          cases res1 with
          | none =>
            obtain ⟨res2, rest2, hrun2, hsuf2, hlen2⟩ := IH (.callLoop node rest1) (hb2 node)
            simp only [PCall.toks, PCall.consMin, List.length_cons] at hsuf2 hlen2
            refine ⟨res2, rest2, ?_, ?_, ?_⟩
            · simp [run, hrp, hrun1, hrun2]
            · exact hsuf2.trans hsuf1
            · have := hsuf2.length_le
              simp only [PCall.consMin, PCall.toks, List.length_cons]; omega
          | some ch =>
            obtain ⟨res2, rest2, hrun2, hsuf2, hlen2⟩ := IH (.callLoop (addChild node ch) rest1) (hb2 _)
            simp only [PCall.toks, PCall.consMin, List.length_cons] at hsuf2 hlen2
            refine ⟨res2, rest2, ?_, ?_, ?_⟩
            · simp [run, hrp, hrun1, hrun2]
            · exact hsuf2.trans hsuf1
            · have := hsuf2.length_le
              simp only [PCall.consMin, PCall.toks, List.length_cons]; omega
    | anyExpr toks =>
      cases toks with
      | nil =>
        exact ⟨none, [], by simp [run], List.nil_suffix, by simp [PCall.consMin, PCall.toks]⟩
      | cons t rest =>
        simp only [PCall.toks, PCall.rank, List.length_cons] at hbud
        by_cases hlp : t.type = TokType.LPAREN
        · obtain ⟨res1, rest1, hrun1, hsuf1, hlen1⟩ :=
            IH (.exprBody t.line rest) (by simp only [PCall.toks, PCall.rank, List.length_cons]; omega)
          simp only [PCall.toks, PCall.consMin, List.length_cons] at hsuf1 hlen1
          refine ⟨res1, rest1, ?_, ?_, ?_⟩
          · simp [run, hlp, hrun1]
          · exact hsuf1.trans (List.suffix_cons _ _)
          · have := hsuf1.length_le
            simp only [PCall.consMin, PCall.toks, List.length_cons]; omega
        · refine ⟨some (parseAtom t), rest, ?_, List.suffix_cons _ _, ?_⟩
          · simp [run, hlp]
          · simp [PCall.consMin, PCall.toks]

/-! ## Line invariants of the AST

`lineOk n` states the data-model invariant of one node and its subtree:
`end_line ≥ start_line` and a parent's `end_line` is at least every child's
`end_line`. -/

/-- Recursive line invariant of a node. -/
def lineOk : MeTTaNode → Bool
  | .mk _ _ line e cs => decide (line ≤ e) && go e cs
where go : Nat → List MeTTaNode → Bool
  | _, [] => true
  | e, c :: cs => decide (c.endLine ≤ e) && lineOk c && go e cs

theorem lineOk_go_mono {e e' : Nat} (h : e ≤ e') :
    ∀ cs, lineOk.go e cs = true → lineOk.go e' cs = true := by
  intro cs
  induction cs with
  | nil => simp [lineOk.go]
  | cons c cs ih =>
    simp only [lineOk.go, Bool.and_eq_true, decide_eq_true_eq]
    rintro ⟨⟨h1, h2⟩, h3⟩
    exact ⟨⟨h1.trans h, h2⟩, ih h3⟩

theorem lineOk_mk_nochild {t v : String} {l e : Nat} (h : l ≤ e) :
    lineOk (.mk t v l e []) = true := by
  simp [lineOk, lineOk.go, h]

theorem lineOk_mkNode (t v : String) (l : Nat) : lineOk (mkNode t v l) = true :=
  lineOk_mk_nochild le_rfl

theorem lineOk_le {n : MeTTaNode} (h : lineOk n = true) : n.line ≤ n.endLine := by
  cases n with
  | mk t v l e cs =>
    simp only [lineOk, Bool.and_eq_true, decide_eq_true_eq] at h
    exact h.1

theorem addChild_line (n c : MeTTaNode) : (addChild n c).line = n.line := by
  cases n; rfl

theorem addChild_type (n c : MeTTaNode) : (addChild n c).type = n.type := by
  cases n; rfl

theorem addChild_endLine (n c : MeTTaNode) :
    (addChild n c).endLine = max n.endLine c.endLine := by
  cases n with
  | mk t v l e cs =>
    cases c with
    | mk t' v' l' e' cs' =>
      simp only [addChild, MeTTaNode.endLine]
      split <;> omega

theorem addChild_children (n c : MeTTaNode) :
    (addChild n c).children = n.children ++ [c] := by
  cases n; rfl

theorem lineOk_addChild {n c : MeTTaNode} (hn : lineOk n = true) (hc : lineOk c = true) :
    lineOk (addChild n c) = true := by
  cases n with
  | mk t v l e cs =>
    simp only [lineOk, Bool.and_eq_true, decide_eq_true_eq] at hn
    obtain ⟨h1, h2⟩ := hn
    simp only [addChild, lineOk, Bool.and_eq_true, decide_eq_true_eq]
    constructor
    · split <;> omega
    · have hmax : e ≤ if e < c.endLine then c.endLine else e := by split <;> omega
      have hgo := lineOk_go_mono hmax cs h2
      have hcend : c.endLine ≤ if e < c.endLine then c.endLine else e := by split <;> omega
      -- children cs ++ [c]
      clear h2
      induction cs with
      | nil => simp [lineOk.go, hc, hcend]
      | cons d ds ih =>
        simp only [lineOk.go, Bool.and_eq_true, decide_eq_true_eq] at hgo ⊢
        exact ⟨hgo.1, ih hgo.2⟩

theorem setEndLine_line (n : MeTTaNode) (e : Nat) : (setEndLine n e).line = n.line := by
  cases n; rfl

theorem setEndLine_type (n : MeTTaNode) (e : Nat) : (setEndLine n e).type = n.type := by
  cases n; rfl

theorem setEndLine_endLine (n : MeTTaNode) (e : Nat) : (setEndLine n e).endLine = e := by
  cases n; rfl

theorem lineOk_setEndLine {n : MeTTaNode} {e : Nat} (h : lineOk n = true)
    (he : n.endLine ≤ e) : lineOk (setEndLine n e) = true := by
  cases n with
  | mk t v l e0 cs =>
    simp only [lineOk, Bool.and_eq_true, decide_eq_true_eq] at h
    simp only [MeTTaNode.endLine] at he
    simp only [setEndLine, lineOk, Bool.and_eq_true, decide_eq_true_eq]
    exact ⟨h.1.trans he, lineOk_go_mono he cs h.2⟩

/-- Nondecreasing token lines: what the lexer guarantees. -/
def TokensMono (toks : List MeTTaToken) : Prop :=
  List.Pairwise (fun a b : MeTTaToken => a.line ≤ b.line) toks

theorem tokensMono_suffix {rest toks : List MeTTaToken} (h : rest <:+ toks)
    (hm : TokensMono toks) : TokensMono rest :=
  hm.sublist h.sublist

theorem lb_suffix {rest toks : List MeTTaToken} {l : Nat} (h : rest <:+ toks)
    (hp : ∀ t ∈ toks, l ≤ t.line) : ∀ t ∈ rest, l ≤ t.line :=
  fun t ht => hp t (h.subset ht)

/-- Lines of the tokens produced by `segsToToks` are at least the running line
counter, and nondecreasing. -/
theorem segsToToks_mono : ∀ (segs : List Seg) (pos line ls : Nat),
    TokensMono (segsToToks segs pos line ls) ∧
    ∀ tk ∈ segsToToks segs pos line ls, line ≤ tk.line := by
  intro segs
  induction segs with
  | nil => intro pos line ls; exact ⟨List.Pairwise.nil, by simp [segsToToks]⟩
  | cons s rest ih =>
    intro pos line ls
    cases s with
    | skip c =>
      simpa only [segsToToks] using ih (pos + 1) line ls
    | tok k t =>
      cases k with
      | NEWLINE =>
        obtain ⟨h1, h2⟩ := ih (pos + t.length) (line + 1) (pos + t.length)
        exact ⟨by simpa only [segsToToks] using h1,
          by intro tk htk; simp only [segsToToks] at htk; exact (h2 tk htk).trans' (by omega)⟩
      | WHITESPACE =>
        simpa only [segsToToks] using ih (pos + t.length) line ls
      | COMMENT =>
        obtain ⟨h1, h2⟩ := ih (pos + t.length) line ls
        refine ⟨?_, ?_⟩
        · simp only [segsToToks]
          exact List.Pairwise.cons (fun tk htk => h2 tk htk) h1
        · intro tk htk
          simp only [segsToToks, List.mem_cons] at htk
          rcases htk with rfl | htk
          · exact le_rfl
          · exact h2 tk htk
      | EXECUTE =>
        obtain ⟨h1, h2⟩ := ih (pos + t.length) line ls
        refine ⟨?_, ?_⟩
        · simp only [segsToToks]
          exact List.Pairwise.cons (fun tk htk => h2 tk htk) h1
        · intro tk htk
          simp only [segsToToks, List.mem_cons] at htk
          rcases htk with rfl | htk
          · exact le_rfl
          · exact h2 tk htk
      | LPAREN =>
        obtain ⟨h1, h2⟩ := ih (pos + t.length) line ls
        refine ⟨?_, ?_⟩
        · simp only [segsToToks]
          exact List.Pairwise.cons (fun tk htk => h2 tk htk) h1
        · intro tk htk
          simp only [segsToToks, List.mem_cons] at htk
          rcases htk with rfl | htk
          · exact le_rfl
          · exact h2 tk htk
      | RPAREN =>
        obtain ⟨h1, h2⟩ := ih (pos + t.length) line ls
        refine ⟨?_, ?_⟩
        · simp only [segsToToks]
          exact List.Pairwise.cons (fun tk htk => h2 tk htk) h1
        · intro tk htk
          simp only [segsToToks, List.mem_cons] at htk
          rcases htk with rfl | htk
          · exact le_rfl
          · exact h2 tk htk
      | LBRACKET =>
        obtain ⟨h1, h2⟩ := ih (pos + t.length) line ls
        refine ⟨?_, ?_⟩
        · simp only [segsToToks]
          exact List.Pairwise.cons (fun tk htk => h2 tk htk) h1
        · intro tk htk
          simp only [segsToToks, List.mem_cons] at htk
          rcases htk with rfl | htk
          · exact le_rfl
          · exact h2 tk htk
      | RBRACKET =>
        obtain ⟨h1, h2⟩ := ih (pos + t.length) line ls
        refine ⟨?_, ?_⟩
        · simp only [segsToToks]
          exact List.Pairwise.cons (fun tk htk => h2 tk htk) h1
        · intro tk htk
          simp only [segsToToks, List.mem_cons] at htk
          rcases htk with rfl | htk
          · exact le_rfl
          · exact h2 tk htk
      | ATOMESPACE =>
        obtain ⟨h1, h2⟩ := ih (pos + t.length) line ls
        refine ⟨?_, ?_⟩
        · simp only [segsToToks]
          exact List.Pairwise.cons (fun tk htk => h2 tk htk) h1
        · intro tk htk
          simp only [segsToToks, List.mem_cons] at htk
          rcases htk with rfl | htk
          · exact le_rfl
          · exact h2 tk htk
      | VARIABLE =>
        obtain ⟨h1, h2⟩ := ih (pos + t.length) line ls
        refine ⟨?_, ?_⟩
        · simp only [segsToToks]
          exact List.Pairwise.cons (fun tk htk => h2 tk htk) h1
        · intro tk htk
          simp only [segsToToks, List.mem_cons] at htk
          rcases htk with rfl | htk
          · exact le_rfl
          · exact h2 tk htk
      | STRING =>
        obtain ⟨h1, h2⟩ := ih (pos + t.length) line ls
        refine ⟨?_, ?_⟩
        · simp only [segsToToks]
          exact List.Pairwise.cons (fun tk htk => h2 tk htk) h1
        · intro tk htk
          simp only [segsToToks, List.mem_cons] at htk
          rcases htk with rfl | htk
          · exact le_rfl
          · exact h2 tk htk
      | NUMBER =>
        obtain ⟨h1, h2⟩ := ih (pos + t.length) line ls
        refine ⟨?_, ?_⟩
        · simp only [segsToToks]
          exact List.Pairwise.cons (fun tk htk => h2 tk htk) h1
        · intro tk htk
          simp only [segsToToks, List.mem_cons] at htk
          rcases htk with rfl | htk
          · exact le_rfl
          · exact h2 tk htk
      | EQUALS =>
        obtain ⟨h1, h2⟩ := ih (pos + t.length) line ls
        refine ⟨?_, ?_⟩
        · simp only [segsToToks]
          exact List.Pairwise.cons (fun tk htk => h2 tk htk) h1
        · intro tk htk
          simp only [segsToToks, List.mem_cons] at htk
          rcases htk with rfl | htk
          · exact le_rfl
          · exact h2 tk htk
      | OPERATOR =>
        obtain ⟨h1, h2⟩ := ih (pos + t.length) line ls
        refine ⟨?_, ?_⟩
        · simp only [segsToToks]
          exact List.Pairwise.cons (fun tk htk => h2 tk htk) h1
        · intro tk htk
          simp only [segsToToks, List.mem_cons] at htk
          rcases htk with rfl | htk
          · exact le_rfl
          · exact h2 tk htk
      | ATOM =>
        obtain ⟨h1, h2⟩ := ih (pos + t.length) line ls
        refine ⟨?_, ?_⟩
        · simp only [segsToToks]
          exact List.Pairwise.cons (fun tk htk => h2 tk htk) h1
        · intro tk htk
          simp only [segsToToks, List.mem_cons] at htk
          rcases htk with rfl | htk
          · exact le_rfl
          · exact h2 tk htk

/-- The token list produced by the lexer has nondecreasing line numbers. -/
theorem tokenize_mono (code : List Char) : TokensMono (tokenize code) :=
  (segsToToks_mono (lexerSegments code) 0 1 0).1

/-- End line of `parseAtom` is the token's line. -/
theorem parseAtom_endLine (t : MeTTaToken) : (parseAtom t).endLine = t.line := by
  cases t with
  | mk ty v l col => cases ty <;> rfl

theorem parseAtom_lineOk (t : MeTTaToken) : lineOk (parseAtom t) = true := by
  cases t with
  | mk ty v l col => cases ty <;> exact lineOk_mkNode _ _ _

theorem mkNode_line (t v : String) (l : Nat) : (mkNode t v l).line = l := rfl

theorem mkNode_endLine (t v : String) (l : Nat) : (mkNode t v l).endLine = l := rfl

/-- Precondition of each parser method needed for the line invariant:
start-line parameters never exceed the lines of the tokens still to be read,
and accumulating loops keep a well-formed node that ends no later than any
remaining token. -/
def LinePre : PCall → Prop
  | .progLoop root _ => lineOk root = true
  | .topLevel _ => True
  | .execution line toks => ∀ t ∈ toks, line ≤ t.line
  | .exprBody s toks => ∀ t ∈ toks, s ≤ t.line
  | .fnDef s toks => ∀ t ∈ toks, s ≤ t.line
  | .fnSig _ => True
  | .sigLoop node toks => lineOk node = true ∧ ∀ t ∈ toks, node.endLine ≤ t.line
  | .fdLoop node toks => lineOk node = true ∧ ∀ t ∈ toks, node.endLine ≤ t.line
  | .callLoop node toks => lineOk node = true ∧ ∀ t ∈ toks, node.endLine ≤ t.line
  | .anyExpr _ => True

/-- Postcondition: any produced node satisfies the line invariant and ends no
later than any unconsumed token; methods that create the node at a given
start line report that line. -/
def LinePost : PCall → Option MeTTaNode → List MeTTaToken → Prop
  | .progLoop _ _, res, _ => ∃ root', res = some root' ∧ lineOk root' = true
  | .topLevel _, res, rest =>
      ∀ n, res = some n → lineOk n = true ∧ ∀ t ∈ rest, n.endLine ≤ t.line
  | .execution _ _, res, rest =>
      ∀ n, res = some n → lineOk n = true ∧ ∀ t ∈ rest, n.endLine ≤ t.line
  | .exprBody s _, res, rest =>
      ∃ n, res = some n ∧ n.line = s ∧ lineOk n = true ∧ ∀ t ∈ rest, n.endLine ≤ t.line
  | .fnDef s _, res, rest =>
      ∃ n, res = some n ∧ n.line = s ∧ lineOk n = true ∧ ∀ t ∈ rest, n.endLine ≤ t.line
  | .fnSig _, res, rest =>
      ∀ n, res = some n → lineOk n = true ∧ ∀ t ∈ rest, n.endLine ≤ t.line
  | .sigLoop node _, res, rest =>
      ∃ n', res = some n' ∧ n'.line = node.line ∧ lineOk n' = true ∧
        ∀ t ∈ rest, n'.endLine ≤ t.line
  | .fdLoop node _, res, rest =>
      ∃ n', res = some n' ∧ n'.line = node.line ∧ lineOk n' = true ∧
        ∀ t ∈ rest, n'.endLine ≤ t.line
  | .callLoop node _, res, rest =>
      ∃ n', res = some n' ∧ n'.line = node.line ∧ lineOk n' = true ∧
        ∀ t ∈ rest, n'.endLine ≤ t.line
  | .anyExpr _, res, rest =>
      ∀ n, res = some n → lineOk n = true ∧ ∀ t ∈ rest, n.endLine ≤ t.line

theorem run_lines : ∀ (fuel : Nat) (c : PCall),
    4 * (PCall.toks c).length + PCall.rank c + 1 ≤ fuel →
    TokensMono (PCall.toks c) → LinePre c →
    ∀ res rest, run fuel c = some (res, rest) → LinePost c res rest := by
  intro fuel
  induction fuel with
  | zero => intro c h; omega
  | succ F IH =>
    intro c hbud hmono hpre res rest hrun
    cases c with
    | progLoop root toks =>
      simp only [LinePre] at hpre
      cases toks with
      | nil =>
        simp only [run, Option.some.injEq, Prod.mk.injEq] at hrun
        obtain ⟨h1, h2⟩ := hrun
        subst h1
        exact ⟨root, rfl, hpre⟩
      | cons t ts =>
        simp only [PCall.toks, PCall.rank, List.length_cons] at hbud
        simp only [PCall.toks] at hmono
        obtain ⟨res1, rest1, hrun1, hsuf1, hlen1⟩ :=
          run_ok F (.topLevel (t :: ts)) (by simp only [PCall.toks, PCall.rank, List.length_cons]; omega)
        simp only [PCall.toks, PCall.consMin, List.length_cons] at hsuf1 hlen1
        have post1 := IH (.topLevel (t :: ts))
          (by simp only [PCall.toks, PCall.rank, List.length_cons]; omega)
          hmono trivial res1 rest1 hrun1
        simp only [LinePost] at post1
        simp only [run, hrun1] at hrun
        have hmono1 : TokensMono rest1 := tokensMono_suffix hsuf1 hmono
        cases res1 with
        | none =>
          have post2 := IH (.progLoop root rest1)
            (by simp only [PCall.toks, PCall.rank]; omega)
            hmono1 hpre res rest hrun
          simpa only [LinePost] using post2
        | some n =>
          have hok := (post1 n rfl).1
          have post2 := IH (.progLoop (addChild root n) rest1)
            (by simp only [PCall.toks, PCall.rank]; omega)
            hmono1 (lineOk_addChild hpre hok) res rest hrun
          simpa only [LinePost] using post2
    | topLevel toks =>
      cases toks with
      | nil =>
        simp only [run, Option.some.injEq, Prod.mk.injEq] at hrun
        obtain ⟨h1, h2⟩ := hrun
        subst h1
        simp only [LinePost]
        intro n hn
        cases hn
      | cons t ts =>
        simp only [PCall.toks, PCall.rank, List.length_cons] at hbud
        simp only [PCall.toks] at hmono
        obtain ⟨hhd, htl⟩ := List.pairwise_cons.mp hmono
        obtain ⟨ty, v, ln, col⟩ := t
        simp only [MeTTaToken.line] at hhd
        cases ty
        case COMMENT =>
          simp only [run, Option.some.injEq, Prod.mk.injEq] at hrun
          obtain ⟨h1, h2⟩ := hrun
          subst h1; subst h2
          simp only [LinePost]
          intro n hn
          obtain ⟨rfl⟩ : mkNode "comment" (pyStrip v) ln = n := by
            injection hn
          exact ⟨lineOk_mkNode _ _ _, fun t' ht' => hhd t' ht'⟩
        case EXECUTE =>
          simp only [run] at hrun
          have post1 := IH (.execution ln ts)
            (by simp only [PCall.toks, PCall.rank, List.length_cons]; omega)
            htl (by simpa only [LinePre] using hhd) res rest hrun
          simpa only [LinePost] using post1
        case LPAREN =>
          simp only [run] at hrun
          have post1 := IH (.exprBody ln ts)
            (by simp only [PCall.toks, PCall.rank, List.length_cons]; omega)
            htl (by simpa only [LinePre] using hhd) res rest hrun
          simp only [LinePost] at post1 ⊢
          obtain ⟨n, hres, hline, hok, hbound⟩ := post1
          intro m hm
          rw [hres] at hm
          obtain ⟨rfl⟩ : n = m := by injection hm
          exact ⟨hok, hbound⟩
        all_goals
          simp only [run, Option.some.injEq, Prod.mk.injEq] at hrun
        all_goals
          obtain ⟨h1, h2⟩ := hrun
        all_goals
          subst h1
        all_goals
          simp only [LinePost]
        all_goals
          intro n hn
        all_goals
          cases hn
    | execution line toks =>
      simp only [LinePre] at hpre
      cases toks with
      | nil =>
        simp only [run, Option.some.injEq, Prod.mk.injEq] at hrun
        obtain ⟨h1, h2⟩ := hrun
        subst h1
        simp only [LinePost]
        intro n hn
        obtain ⟨rfl⟩ : mkNode "execution" "!" line = n := by injection hn
        exact ⟨lineOk_mkNode _ _ _, by subst h2; intro t' ht'; cases ht'⟩
      | cons lp rest0 =>
        simp only [PCall.toks, PCall.rank, List.length_cons] at hbud
        simp only [PCall.toks] at hmono
        obtain ⟨hhd, htl⟩ := List.pairwise_cons.mp hmono
        by_cases hlp : lp.type = TokType.LPAREN
        · obtain ⟨res1, rest1, hrun1, hsuf1, hlen1⟩ :=
            run_ok F (.exprBody lp.line rest0)
              (by simp only [PCall.toks, PCall.rank, List.length_cons]; omega)
          simp only [PCall.toks, PCall.consMin, List.length_cons] at hsuf1 hlen1
          have post1 := IH (.exprBody lp.line rest0)
            (by simp only [PCall.toks, PCall.rank, List.length_cons]; omega)
            htl (by simpa only [LinePre] using hhd) res1 rest1 hrun1
          simp only [LinePost] at post1
          obtain ⟨expr, hres1, hexline, hexok, hexbound⟩ := post1
          subst hres1
          simp only [run, hlp, if_true, hrun1, Option.some.injEq, Prod.mk.injEq] at hrun
          obtain ⟨h1, h2⟩ := hrun
          subst h1; subst h2
          simp only [LinePost]
          intro n hn
          obtain ⟨rfl⟩ : addChild (mkNodeE "execution" "!" line expr.endLine) expr = n := by
            injection hn
          have hLineLe : line ≤ expr.endLine ∨ expr.endLine = 0 := by
            by_cases h0 : expr.endLine = 0
            · exact Or.inr h0
            · refine Or.inl ?_
              have h1 : line ≤ lp.line := hpre lp (by simp)
              have h2 : expr.line ≤ expr.endLine := lineOk_le hexok
              omega
          have hbase : lineOk (mkNodeE "execution" "!" line expr.endLine) = true := by
            simp only [mkNodeE]
            split
            · exact lineOk_mk_nochild le_rfl
            · rcases hLineLe with h | h
              · exact lineOk_mk_nochild h
              · simp_all
          have hbaseEnd : (mkNodeE "execution" "!" line expr.endLine).endLine =
              if expr.endLine = 0 then line else expr.endLine := rfl
          refine ⟨lineOk_addChild hbase hexok, ?_⟩
          intro t' ht'
          rw [addChild_endLine, hbaseEnd]
          have hex := hexbound t' ht'
          have hl : line ≤ t'.line := hpre t' (hsuf1.subset ht' |> List.mem_cons_of_mem lp)
          split <;> omega
        · simp only [run, hlp, if_false, Option.some.injEq, Prod.mk.injEq] at hrun
          obtain ⟨h1, h2⟩ := hrun
          subst h1; subst h2
          simp only [LinePost]
          intro n hn
          obtain ⟨rfl⟩ : mkNode "execution" "!" line = n := by injection hn
          exact ⟨lineOk_mkNode _ _ _, fun t' ht' => hpre t' ht'⟩
    | exprBody s toks =>
      simp only [LinePre] at hpre
      cases toks with
      | nil =>
        simp only [run, Option.some.injEq, Prod.mk.injEq] at hrun
        obtain ⟨h1, h2⟩ := hrun
        subst h1
        simp only [LinePost]
        exact ⟨mkNode "empty_expression" "" s, rfl, rfl, lineOk_mkNode _ _ _,
          by subst h2; intro t' ht'; cases ht'⟩
      | cons t rest0 =>
        simp only [PCall.toks, PCall.rank, List.length_cons] at hbud
        simp only [PCall.toks] at hmono
        obtain ⟨hhd, htl⟩ := List.pairwise_cons.mp hmono
        by_cases hrp : t.type = TokType.RPAREN
        · simp only [run, hrp, if_true, Option.some.injEq, Prod.mk.injEq] at hrun
          obtain ⟨h1, h2⟩ := hrun
          subst h1; subst h2
          simp only [LinePost]
          exact ⟨mkNode "empty_expression" "" s, rfl, rfl, lineOk_mkNode _ _ _,
            fun t' ht' => hpre t' (List.mem_cons_of_mem t ht')⟩
        · by_cases heq : t.type = TokType.EQUALS
          · obtain ⟨res1, rest1, hrun1, hsuf1, hlen1⟩ :=
              run_ok F (.fnDef s (t :: rest0))
                (by simp only [PCall.toks, PCall.rank, List.length_cons]; omega)
            simp only [PCall.toks, PCall.consMin, List.length_cons] at hsuf1 hlen1
            have post1 := IH (.fnDef s (t :: rest0))
              (by simp only [PCall.toks, PCall.rank, List.length_cons]; omega)
              hmono (by simpa only [LinePre] using hpre) res1 rest1 hrun1
            simp only [LinePost] at post1
            obtain ⟨n, hres1, hnline, hnok, hnbound⟩ := post1
            subst hres1
            have hmono1 : TokensMono rest1 := tokensMono_suffix hsuf1 hmono
            simp only [run] at hrun
            rw [if_neg hrp, if_pos heq, hrun1] at hrun
            cases rest1 with
            | nil =>
              simp only [Option.some.injEq, Prod.mk.injEq] at hrun
              obtain ⟨h1, h2⟩ := hrun
              subst h1
              simp only [LinePost]
              exact ⟨n, rfl, hnline, hnok, by subst h2; intro t' ht'; cases ht'⟩
            | cons e rest'' =>
              obtain ⟨hehd, hetl⟩ := List.pairwise_cons.mp hmono1
              by_cases hrp2 : e.type = TokType.RPAREN
              · simp only [hrp2, if_true, Option.map_some, Option.some.injEq,
                  Prod.mk.injEq] at hrun
                obtain ⟨h1, h2⟩ := hrun
                subst h1; subst h2
                simp only [LinePost]
                refine ⟨setEndLine n e.line, rfl, ?_, ?_, ?_⟩
                · rw [setEndLine_line]; exact hnline
                · exact lineOk_setEndLine hnok (hnbound e (by simp))
                · intro t' ht'
                  rw [setEndLine_endLine]
                  exact hehd t' ht'
              · simp only [hrp2, if_false, Option.some.injEq, Prod.mk.injEq] at hrun
                obtain ⟨h1, h2⟩ := hrun
                subst h1; subst h2
                simp only [LinePost]
                exact ⟨n, rfl, hnline, hnok, hnbound⟩
          · obtain ⟨res1, rest1, hrun1, hsuf1, hlen1⟩ :=
              run_ok F (.callLoop (mkNode "expression" "" s) (t :: rest0))
                (by simp only [PCall.toks, PCall.rank, List.length_cons]; omega)
            simp only [PCall.toks, PCall.consMin, List.length_cons] at hsuf1 hlen1
            have post1 := IH (.callLoop (mkNode "expression" "" s) (t :: rest0))
              (by simp only [PCall.toks, PCall.rank, List.length_cons]; omega)
              hmono (by
                simp only [LinePre]
                exact ⟨lineOk_mkNode _ _ _, fun t' ht' => hpre t' ht'⟩) res1 rest1 hrun1
            simp only [LinePost] at post1
            obtain ⟨n, hres1, hnline, hnok, hnbound⟩ := post1
            subst hres1
            have hmono1 : TokensMono rest1 := tokensMono_suffix hsuf1 hmono
            simp only [run, hrp, heq, if_false, hrun1] at hrun
            cases rest1 with
            | nil =>
              simp only [Option.some.injEq, Prod.mk.injEq] at hrun
              obtain ⟨h1, h2⟩ := hrun
              subst h1
              simp only [LinePost]
              exact ⟨n, rfl, hnline, hnok, by subst h2; intro t' ht'; cases ht'⟩
            | cons e rest'' =>
              obtain ⟨hehd, hetl⟩ := List.pairwise_cons.mp hmono1
              by_cases hrp2 : e.type = TokType.RPAREN
              · simp only [hrp2, if_true, Option.map_some, Option.some.injEq,
                  Prod.mk.injEq] at hrun
                obtain ⟨h1, h2⟩ := hrun
                subst h1; subst h2
                simp only [LinePost]
                refine ⟨setEndLine n e.line, rfl, ?_, ?_, ?_⟩
                · rw [setEndLine_line]; exact hnline
                · exact lineOk_setEndLine hnok (hnbound e (by simp))
                · intro t' ht'
                  rw [setEndLine_endLine]
                  exact hehd t' ht'
              · simp only [hrp2, if_false, Option.some.injEq, Prod.mk.injEq] at hrun
                obtain ⟨h1, h2⟩ := hrun
                subst h1; subst h2
                simp only [LinePost]
                exact ⟨n, rfl, hnline, hnok, hnbound⟩
    | fnDef s toks =>
      simp only [LinePre] at hpre
      cases toks with
      | nil =>
        simp only [run, List.tail_nil] at hrun
        have post1 := IH (.fdLoop (mkNode "function_definition" "" s) [])
          (by simp only [PCall.toks, PCall.rank, List.length_cons]
              simp only [PCall.toks, PCall.rank, List.length_nil] at hbud ⊢
              omega)
          List.Pairwise.nil
          (by simp only [LinePre]
              exact ⟨lineOk_mkNode _ _ _, by intro t' ht'; cases ht'⟩) res rest hrun
        simpa only [LinePost] using post1
      | cons t0 ts0 =>
        simp only [PCall.toks, PCall.rank, List.length_cons] at hbud
        simp only [PCall.toks] at hmono
        obtain ⟨hhd0, htl0⟩ := List.pairwise_cons.mp hmono
        cases ts0 with
        | nil =>
          simp only [run, List.tail_cons] at hrun
          have post1 := IH (.fdLoop (mkNode "function_definition" "" s) [])
            (by simp only [PCall.toks, PCall.rank, List.length_nil]; omega)
            List.Pairwise.nil
            (by simp only [LinePre]
                exact ⟨lineOk_mkNode _ _ _, by intro t' ht'; cases ht'⟩) res rest hrun
          simpa only [LinePost] using post1
        | cons lp rest0 =>
          simp only [List.length_cons] at hbud
          obtain ⟨hhd1, htl1⟩ := List.pairwise_cons.mp htl0
          by_cases hlp : lp.type = TokType.LPAREN
          · obtain ⟨res1, rest1, hrun1, hsuf1, hlen1⟩ :=
              run_ok F (.fnSig rest0)
                (by simp only [PCall.toks, PCall.rank, List.length_cons]; omega)
            simp only [PCall.toks, PCall.consMin, List.length_cons] at hsuf1 hlen1
            have post1 := IH (.fnSig rest0)
              (by simp only [PCall.toks, PCall.rank, List.length_cons]; omega)
              htl1 trivial res1 rest1 hrun1
            simp only [LinePost] at post1
            have hmono1 : TokensMono rest1 := tokensMono_suffix hsuf1 htl1
            have hsLe : ∀ t' ∈ rest1, s ≤ t'.line := by
              intro t' ht'
              exact hpre t' (by
                have := hsuf1.subset ht'
                exact List.mem_cons_of_mem t0 (List.mem_cons_of_mem lp this))
            simp only [run, List.tail_cons, hlp, if_true, hrun1] at hrun
            cases res1 with
            | none =>
              have post2 := IH (.fdLoop (mkNode "function_definition" "" s) rest1)
                (by simp only [PCall.toks, PCall.rank]; omega)
                hmono1
                (by simp only [LinePre]
                    exact ⟨lineOk_mkNode _ _ _, hsLe⟩) res rest hrun
              simpa only [LinePost] using post2
            | some sg =>
              obtain ⟨hsgok, hsgbound⟩ := post1 sg rfl
              have post2 := IH (.fdLoop (addChild (mkNode "function_definition" "" s) sg) rest1)
                (by simp only [PCall.toks, PCall.rank]; omega)
                hmono1
                (by simp only [LinePre]
                    refine ⟨lineOk_addChild (lineOk_mkNode _ _ _) hsgok, ?_⟩
                    intro t' ht'
                    rw [addChild_endLine, mkNode_endLine]
                    exact Nat.max_le.mpr ⟨hsLe t' ht', hsgbound t' ht'⟩) res rest hrun
              simp only [LinePost] at post2 ⊢
              obtain ⟨n', hres, hline, hok, hbound⟩ := post2
              exact ⟨n', hres, by rw [hline, addChild_line]; rfl, hok, hbound⟩
          · simp only [run, List.tail_cons, hlp, if_false] at hrun
            have post2 := IH (.fdLoop (mkNode "function_definition" "" s) (lp :: rest0))
              (by simp only [PCall.toks, PCall.rank, List.length_cons]; omega)
              htl0
              (by simp only [LinePre]
                  exact ⟨lineOk_mkNode _ _ _,
                    fun t' ht' => hpre t' (List.mem_cons_of_mem t0 ht')⟩) res rest hrun
            simpa only [LinePost] using post2
    | fnSig toks =>
      cases toks with
      | nil =>
        simp only [run, Option.some.injEq, Prod.mk.injEq] at hrun
        obtain ⟨h1, h2⟩ := hrun
        subst h1
        simp only [LinePost]
        intro n hn
        cases hn
      | cons t rest0 =>
        simp only [PCall.toks, PCall.rank, List.length_cons] at hbud
        simp only [PCall.toks] at hmono
        obtain ⟨hhd, htl⟩ := List.pairwise_cons.mp hmono
        by_cases hrp : t.type = TokType.RPAREN
        · simp only [run, hrp, if_true, Option.some.injEq, Prod.mk.injEq] at hrun
          obtain ⟨h1, h2⟩ := hrun
          subst h1
          simp only [LinePost]
          intro n hn
          cases hn
        · obtain ⟨res1, rest1, hrun1, hsuf1, hlen1⟩ :=
            run_ok F (.sigLoop (mkNode "function_signature" t.value t.line) rest0)
              (by simp only [PCall.toks, PCall.rank, List.length_cons]; omega)
          simp only [PCall.toks, PCall.consMin, List.length_cons] at hsuf1 hlen1
          have post1 := IH (.sigLoop (mkNode "function_signature" t.value t.line) rest0)
            (by simp only [PCall.toks, PCall.rank, List.length_cons]; omega)
            htl
            (by simp only [LinePre]
                exact ⟨lineOk_mkNode _ _ _, fun t' ht' => hhd t' ht'⟩) res1 rest1 hrun1
          simp only [LinePost] at post1
          obtain ⟨n', hres1, hn'line, hn'ok, hn'bound⟩ := post1
          subst hres1
          have hmono1 : TokensMono rest1 := tokensMono_suffix hsuf1 htl
          simp only [run, hrp, if_false, hrun1] at hrun
          cases rest1 with
          | nil =>
            simp only [Option.some.injEq, Prod.mk.injEq] at hrun
            obtain ⟨h1, h2⟩ := hrun
            subst h1
            simp only [LinePost]
            intro m hm
            obtain ⟨rfl⟩ : n' = m := by injection hm
            exact ⟨hn'ok, by subst h2; intro t' ht'; cases ht'⟩
          | cons e rest'' =>
            obtain ⟨hehd, hetl⟩ := List.pairwise_cons.mp hmono1
            by_cases hrp2 : e.type = TokType.RPAREN
            · simp only [hrp2, if_true, Option.map_some, Option.some.injEq,
                Prod.mk.injEq] at hrun
              obtain ⟨h1, h2⟩ := hrun
              subst h1; subst h2
              simp only [LinePost]
              intro m hm
              obtain ⟨rfl⟩ : setEndLine n' e.line = m := by injection hm
              refine ⟨lineOk_setEndLine hn'ok (hn'bound e (by simp)), ?_⟩
              intro t' ht'
              rw [setEndLine_endLine]
              exact hehd t' ht'
            · simp only [hrp2, if_false, Option.some.injEq, Prod.mk.injEq] at hrun
              obtain ⟨h1, h2⟩ := hrun
              subst h1; subst h2
              simp only [LinePost]
              intro m hm
              obtain ⟨rfl⟩ : n' = m := by injection hm
              exact ⟨hn'ok, hn'bound⟩
    | sigLoop node toks =>
      simp only [LinePre] at hpre
      cases toks with
      | nil =>
        simp only [run, Option.some.injEq, Prod.mk.injEq] at hrun
        obtain ⟨h1, h2⟩ := hrun
        subst h1
        simp only [LinePost]
        exact ⟨node, rfl, rfl, hpre.1, by subst h2; intro t' ht'; cases ht'⟩
      | cons t ts =>
        simp only [PCall.toks, PCall.rank, List.length_cons] at hbud
        simp only [PCall.toks] at hmono hpre
        by_cases hrp : t.type = TokType.RPAREN
        · simp only [run, hrp, if_true, Option.some.injEq, Prod.mk.injEq] at hrun
          obtain ⟨h1, h2⟩ := hrun
          subst h1; subst h2
          simp only [LinePost]
          exact ⟨node, rfl, rfl, hpre.1, hpre.2⟩
        · obtain ⟨res1, rest1, hrun1, hsuf1, hlen1⟩ :=
            run_ok F (.anyExpr (t :: ts))
              (by simp only [PCall.toks, PCall.rank, List.length_cons]; omega)
          simp only [PCall.toks, PCall.consMin, List.length_cons] at hsuf1 hlen1
          have post1 := IH (.anyExpr (t :: ts))
            (by simp only [PCall.toks, PCall.rank, List.length_cons]; omega)
            hmono trivial res1 rest1 hrun1
          simp only [LinePost] at post1
          have hmono1 : TokensMono rest1 := tokensMono_suffix hsuf1 hmono
          have hbnd1 : ∀ t' ∈ rest1, node.endLine ≤ t'.line := lb_suffix hsuf1 hpre.2
          simp only [run, hrp, if_false, hrun1] at hrun
          cases res1 with
          | none =>
            have post2 := IH (.sigLoop node rest1)
              (by simp only [PCall.toks, PCall.rank]; omega)
              hmono1 (by simp only [LinePre]; exact ⟨hpre.1, hbnd1⟩) res rest hrun
            simpa only [LinePost] using post2
          | some ch =>
            obtain ⟨hchok, hchbound⟩ := post1 ch rfl
            have post2 := IH (.sigLoop (addChild node ch) rest1)
              (by simp only [PCall.toks, PCall.rank]; omega)
              hmono1
              (by simp only [LinePre]
                  refine ⟨lineOk_addChild hpre.1 hchok, ?_⟩
                  intro t' ht'
                  rw [addChild_endLine]
                  exact Nat.max_le.mpr ⟨hbnd1 t' ht', hchbound t' ht'⟩) res rest hrun
            simp only [LinePost] at post2 ⊢
            obtain ⟨n', hres, hline, hok, hbound⟩ := post2
            exact ⟨n', hres, by rw [hline, addChild_line], hok, hbound⟩
    | fdLoop node toks =>
      simp only [LinePre] at hpre
      cases toks with
      | nil =>
        simp only [run, Option.some.injEq, Prod.mk.injEq] at hrun
        obtain ⟨h1, h2⟩ := hrun
        subst h1
        simp only [LinePost]
        exact ⟨node, rfl, rfl, hpre.1, by subst h2; intro t' ht'; cases ht'⟩
      | cons t ts =>
        simp only [PCall.toks, PCall.rank, List.length_cons] at hbud
        simp only [PCall.toks] at hmono hpre
        by_cases hrp : t.type = TokType.RPAREN
        · simp only [run, hrp, if_true, Option.some.injEq, Prod.mk.injEq] at hrun
          obtain ⟨h1, h2⟩ := hrun
          subst h1; subst h2
          simp only [LinePost]
          exact ⟨node, rfl, rfl, hpre.1, hpre.2⟩
        · obtain ⟨res1, rest1, hrun1, hsuf1, hlen1⟩ :=
            run_ok F (.anyExpr (t :: ts))
              (by simp only [PCall.toks, PCall.rank, List.length_cons]; omega)
          simp only [PCall.toks, PCall.consMin, List.length_cons] at hsuf1 hlen1
          have post1 := IH (.anyExpr (t :: ts))
            (by simp only [PCall.toks, PCall.rank, List.length_cons]; omega)
            hmono trivial res1 rest1 hrun1
          simp only [LinePost] at post1
          have hmono1 : TokensMono rest1 := tokensMono_suffix hsuf1 hmono
          have hbnd1 : ∀ t' ∈ rest1, node.endLine ≤ t'.line := lb_suffix hsuf1 hpre.2
          simp only [run, hrp, if_false, hrun1] at hrun
          cases res1 with
          | none =>
            have post2 := IH (.fdLoop node rest1)
              (by simp only [PCall.toks, PCall.rank]; omega)
              hmono1 (by simp only [LinePre]; exact ⟨hpre.1, hbnd1⟩) res rest hrun
            simpa only [LinePost] using post2
          | some ch =>
            obtain ⟨hchok, hchbound⟩ := post1 ch rfl
            have post2 := IH (.fdLoop (addChild node ch) rest1)
              (by simp only [PCall.toks, PCall.rank]; omega)
              hmono1
              (by simp only [LinePre]
                  refine ⟨lineOk_addChild hpre.1 hchok, ?_⟩
                  intro t' ht'
                  rw [addChild_endLine]
                  exact Nat.max_le.mpr ⟨hbnd1 t' ht', hchbound t' ht'⟩) res rest hrun
            simp only [LinePost] at post2 ⊢
            obtain ⟨n', hres, hline, hok, hbound⟩ := post2
            exact ⟨n', hres, by rw [hline, addChild_line], hok, hbound⟩
    | callLoop node toks =>
      simp only [LinePre] at hpre
      cases toks with
      | nil =>
        simp only [run, Option.some.injEq, Prod.mk.injEq] at hrun
        obtain ⟨h1, h2⟩ := hrun
        subst h1
        simp only [LinePost]
        exact ⟨node, rfl, rfl, hpre.1, by subst h2; intro t' ht'; cases ht'⟩
      | cons t ts =>
        simp only [PCall.toks, PCall.rank, List.length_cons] at hbud
        simp only [PCall.toks] at hmono hpre
        by_cases hrp : t.type = TokType.RPAREN
        · simp only [run, hrp, if_true, Option.some.injEq, Prod.mk.injEq] at hrun
          obtain ⟨h1, h2⟩ := hrun
          subst h1; subst h2
          simp only [LinePost]
          exact ⟨node, rfl, rfl, hpre.1, hpre.2⟩
        · obtain ⟨res1, rest1, hrun1, hsuf1, hlen1⟩ :=
            run_ok F (.anyExpr (t :: ts))
              (by simp only [PCall.toks, PCall.rank, List.length_cons]; omega)
          simp only [PCall.toks, PCall.consMin, List.length_cons] at hsuf1 hlen1
          have post1 := IH (.anyExpr (t :: ts))
            (by simp only [PCall.toks, PCall.rank, List.length_cons]; omega)
            hmono trivial res1 rest1 hrun1
          simp only [LinePost] at post1
          have hmono1 : TokensMono rest1 := tokensMono_suffix hsuf1 hmono
          have hbnd1 : ∀ t' ∈ rest1, node.endLine ≤ t'.line := lb_suffix hsuf1 hpre.2
          simp only [run, hrp, if_false, hrun1] at hrun
          cases res1 with
          | none =>
            have post2 := IH (.callLoop node rest1)
              (by simp only [PCall.toks, PCall.rank]; omega)
              hmono1 (by simp only [LinePre]; exact ⟨hpre.1, hbnd1⟩) res rest hrun
            simpa only [LinePost] using post2
          | some ch =>
            obtain ⟨hchok, hchbound⟩ := post1 ch rfl
            have post2 := IH (.callLoop (addChild node ch) rest1)
              (by simp only [PCall.toks, PCall.rank]; omega)
              hmono1
              (by simp only [LinePre]
                  refine ⟨lineOk_addChild hpre.1 hchok, ?_⟩
                  intro t' ht'
                  rw [addChild_endLine]
                  exact Nat.max_le.mpr ⟨hbnd1 t' ht', hchbound t' ht'⟩) res rest hrun
            simp only [LinePost] at post2 ⊢
            obtain ⟨n', hres, hline, hok, hbound⟩ := post2
            exact ⟨n', hres, by rw [hline, addChild_line], hok, hbound⟩
    | anyExpr toks =>
      cases toks with
      | nil =>
        simp only [run, Option.some.injEq, Prod.mk.injEq] at hrun
        obtain ⟨h1, h2⟩ := hrun
        subst h1
        simp only [LinePost]
        intro n hn
        cases hn
      | cons t rest0 =>
        simp only [PCall.toks, PCall.rank, List.length_cons] at hbud
        simp only [PCall.toks] at hmono
        obtain ⟨hhd, htl⟩ := List.pairwise_cons.mp hmono
        by_cases hlp : t.type = TokType.LPAREN
        · simp only [run, hlp, if_true] at hrun
          have post1 := IH (.exprBody t.line rest0)
            (by simp only [PCall.toks, PCall.rank, List.length_cons]; omega)
            htl (by simpa only [LinePre] using hhd) res rest hrun
          simp only [LinePost] at post1 ⊢
          obtain ⟨n, hres, hline, hok, hbound⟩ := post1
          intro m hm
          rw [hres] at hm
          obtain ⟨rfl⟩ : n = m := by injection hm
          exact ⟨hok, hbound⟩
        · simp only [run, hlp, if_false, Option.some.injEq, Prod.mk.injEq] at hrun
          obtain ⟨h1, h2⟩ := hrun
          subst h1; subst h2
          simp only [LinePost]
          intro n hn
          obtain ⟨rfl⟩ : parseAtom t = n := by injection hn
          refine ⟨parseAtom_lineOk t, ?_⟩
          intro t' ht'
          rw [parseAtom_endLine]
          exact hhd t' ht'

/-! ## Parse-level consequences -/

/-- All nodes of a subtree, the node itself included (preorder). -/
def subnodes : MeTTaNode → List MeTTaNode
  | .mk t v l e cs => .mk t v l e cs :: go cs
where go : List MeTTaNode → List MeTTaNode
  | [] => []
  | c :: cs => subnodes c ++ go cs

theorem subnodes_eq (n : MeTTaNode) : subnodes n = n :: subnodes.go n.children := by
  cases n; rfl

theorem subnodes_go_mem {m : MeTTaNode} : ∀ {cs : List MeTTaNode},
    m ∈ subnodes.go cs ↔ ∃ c ∈ cs, m ∈ subnodes c := by
  intro cs
  induction cs with
  | nil => simp [subnodes.go]
  | cons c cs ih =>
    simp only [subnodes.go, List.mem_append, ih, List.mem_cons]
    constructor
    · rintro (h | ⟨d, hd, hm⟩)
      · exact ⟨c, Or.inl rfl, h⟩
      · exact ⟨d, Or.inr hd, hm⟩
    · rintro ⟨d, rfl | hd, hm⟩
      · exact Or.inl hm
      · exact Or.inr ⟨d, hd, hm⟩

theorem self_mem_subnodes (n : MeTTaNode) : n ∈ subnodes n := by
  cases n with
  | mk t v l e cs => simp [subnodes]

theorem lineOk_go_mem {e : Nat} : ∀ {cs : List MeTTaNode}, lineOk.go e cs = true →
    ∀ c ∈ cs, lineOk c = true ∧ c.endLine ≤ e := by
  intro cs
  induction cs with
  | nil => intro _ c hc; cases hc
  | cons d ds ih =>
    simp only [lineOk.go, Bool.and_eq_true, decide_eq_true_eq]
    rintro ⟨⟨h1, h2⟩, h3⟩ c hc
    rcases List.mem_cons.mp hc with rfl | hc
    · exact ⟨h2, h1⟩
    · exact ih h3 c hc

/-- Everything below a node with the line invariant also satisfies it, and
ends no later than the node. -/
theorem lineOk_subnodes : ∀ n : MeTTaNode, lineOk n = true →
    ∀ m ∈ subnodes n, lineOk m = true ∧ m.endLine ≤ n.endLine := by
  refine MeTTaNode.strongInd _ ?_
  intro t v l e cs ih hok m hm
  have hok' := hok
  simp only [lineOk, Bool.and_eq_true, decide_eq_true_eq] at hok'
  simp only [subnodes, List.mem_cons] at hm
  rcases hm with rfl | hm
  · exact ⟨hok, le_rfl⟩
  · obtain ⟨c, hc, hmc⟩ := subnodes_go_mem.mp hm
    obtain ⟨hcok, hce⟩ := lineOk_go_mem hok'.2 c hc
    obtain ⟨hmok, hme⟩ := ih c hc hcok m hmc
    exact ⟨hmok, by simpa only [MeTTaNode.endLine] using hme.trans hce⟩

/-- The fuel used by `parseTokens` satisfies the `run_ok` budget. -/
theorem fuelFor_ok (toks : List MeTTaToken) :
    4 * (PCall.toks (.progLoop (mkNode "program" "" 1) toks)).length +
      PCall.rank (.progLoop (mkNode "program" "" 1) toks) + 1 ≤ fuelFor toks := by
  simp only [PCall.toks, PCall.rank, fuelFor]
  omega

/-- Any successful `progLoop` run returns a node, with the root's type kept
by every `add_child`. -/
theorem run_progLoop_some : ∀ (fuel : Nat) (root : MeTTaNode) (toks : List MeTTaToken)
    (res : Option MeTTaNode) (rest : List MeTTaToken),
    run fuel (.progLoop root toks) = some (res, rest) →
    ∃ root', res = some root' ∧ root'.type = root.type := by
  intro fuel
  induction fuel with
  | zero => intro root toks res rest h; simp [run] at h
  | succ F IH =>
    intro root toks res rest h
    cases toks with
    | nil =>
      simp only [run, Option.some.injEq, Prod.mk.injEq] at h
      obtain ⟨h1, h2⟩ := h
      subst h1
      exact ⟨root, rfl, rfl⟩
    | cons t ts =>
      cases hres1 : run F (.topLevel (t :: ts)) with
      | none => simp only [run, hres1] at h; cases h
      | some p =>
        obtain ⟨res1, rest1⟩ := p
        cases res1 with
        | none =>
          simp only [run, hres1] at h
          exact IH root rest1 res rest h
        | some n =>
          simp only [run, hres1] at h
          obtain ⟨root', hres, hty⟩ := IH (addChild root n) rest1 res rest h
          exact ⟨root', hres, by rw [hty, addChild_type]⟩

/-- The parse of any token list succeeds with the chosen fuel: the fallback
arm of `parseTokens` is dead code. -/
theorem parseTokens_run (toks : List MeTTaToken) :
    ∃ rest, run (fuelFor toks) (.progLoop (mkNode "program" "" 1) toks) =
      some (some (parseTokens toks), rest) := by
  obtain ⟨res, rest, hrun, hsuf, hlen⟩ := run_ok (fuelFor toks) _ (fuelFor_ok toks)
  obtain ⟨root', hres, hty⟩ := run_progLoop_some (fuelFor toks) _ toks res rest hrun
  subst hres
  refine ⟨rest, ?_⟩
  rw [hrun]
  have : parseTokens toks = root' := by
    simp only [parseTokens, hrun]
  rw [this]

/-- The root returned by `parseTokens` is always a `program` node. -/
theorem parseTokens_type (toks : List MeTTaToken) :
    (parseTokens toks).type = "program" := by
  obtain ⟨res, rest, hrun, hsuf, hlen⟩ := run_ok (fuelFor toks) _ (fuelFor_ok toks)
  obtain ⟨root', hres, hty⟩ := run_progLoop_some (fuelFor toks) _ toks res rest hrun
  subst hres
  have : parseTokens toks = root' := by
    simp only [parseTokens, hrun]
  rw [this, hty]
  rfl

/-- The root of any parse satisfies the line invariant. -/
theorem parse_lineOk (code : List Char) : lineOk (parse code) = true := by
  obtain ⟨res, rest, hrun, hsuf, hlen⟩ :=
    run_ok (fuelFor (tokenize code)) _ (fuelFor_ok (tokenize code))
  have post := run_lines (fuelFor (tokenize code))
    (.progLoop (mkNode "program" "" 1) (tokenize code)) (fuelFor_ok (tokenize code))
    (by simpa only [PCall.toks] using tokenize_mono code)
    (by simpa only [LinePre] using lineOk_mkNode "program" "" 1)
    res rest hrun
  simp only [LinePost] at post
  obtain ⟨root', hres, hok⟩ := post
  subst hres
  have : parse code = root' := by
    simp only [parse, parseTokens, hrun]
  rw [this]
  exact hok

/-- C3: for every input, every node of the AST returned by the DSL parser has
`end_line ≥ start_line`, every parent's `end_line` is at least the `end_line`
of each of its children (hence at least their maximum), and consequently the
root `program` node's `end_line` dominates every node's `end_line` — even
though consuming a closing parenthesis overwrites a form's `end_line` with the
closing token's line. -/
theorem C3_line_invariants (code : List Char) :
    (∀ m ∈ subnodes (parse code),
      m.line ≤ m.endLine ∧ ∀ c ∈ m.children, c.endLine ≤ m.endLine) ∧
    ∀ m ∈ subnodes (parse code), m.endLine ≤ (parse code).endLine := by
  have hok := parse_lineOk code
  have hsub := lineOk_subnodes (parse code) hok
  constructor
  · intro m hm
    obtain ⟨hmok, _⟩ := hsub m hm
    refine ⟨lineOk_le hmok, ?_⟩
    intro c hc
    cases m with
    | mk t v l e cs =>
      simp only [lineOk, Bool.and_eq_true, decide_eq_true_eq] at hmok
      simp only [MeTTaNode.children] at hc
      simpa only [MeTTaNode.endLine] using (lineOk_go_mem hmok.2 c hc).2
  · intro m hm
    exact (hsub m hm).2

/-- Witness for C3 at a concrete two-line source. -/
theorem C3_line_invariants_witness :
    (parse "(= (double $x)\n (* $x 2))".toList).line ≤
      (parse "(= (double $x)\n (* $x 2))".toList).endLine :=
  ((C3_line_invariants "(= (double $x)\n (* $x 2))".toList).1 _ (by decide)).1

/-- C7: for every token sequence parsing terminates successfully with a
`program` root (the fallback of `parseTokens` is dead code); a top-level token
that cannot start any production is consumed and yields no node, and parsing
continues on the remainder; end-of-input inside an open parenthesized form
yields a truncated `empty_expression`/partial node rather than a failure; and
a `_parse_top_level` step always consumes at least one token (the progress
fact behind loop termination). -/
theorem C7_parser_totality :
    (∀ toks : List MeTTaToken, ∃ rest,
        run (fuelFor toks) (.progLoop (mkNode "program" "" 1) toks) =
          some (some (parseTokens toks), rest)) ∧
    (∀ toks : List MeTTaToken, (parseTokens toks).type = "program") ∧
    (∀ (F : Nat) (t : MeTTaToken) (ts : List MeTTaToken),
        t.type ≠ TokType.COMMENT → t.type ≠ TokType.EXECUTE → t.type ≠ TokType.LPAREN →
        run (F + 1) (.topLevel (t :: ts)) = some (none, ts)) ∧
    (∀ (F : Nat) (t : MeTTaToken) (ts : List MeTTaToken),
        4 * (t :: ts).length + 5 ≤ F →
        ∃ res rest, run F (.topLevel (t :: ts)) = some (res, rest) ∧
          rest.length < (t :: ts).length) ∧
    (∀ (F startLine : Nat), run (F + 1) (.exprBody startLine []) =
        some (some (mkNode "empty_expression" "" startLine), [])) := by
  refine ⟨parseTokens_run, parseTokens_type, ?_, ?_, ?_⟩
  · intro F t ts h1 h2 h3
    obtain ⟨ty, v, ln, col⟩ := t
    simp only [MeTTaToken.type] at h1 h2 h3
    cases ty <;> simp_all [run]
  · intro F t ts hF
    obtain ⟨res, rest, hrun, hsuf, hlen⟩ := run_ok F (.topLevel (t :: ts))
      (by simp only [PCall.toks, PCall.rank, List.length_cons] at *; omega)
    simp only [PCall.toks, PCall.consMin, List.length_cons] at hlen
    exact ⟨res, rest, hrun, by simp only [List.length_cons]; omega⟩
  · intro F startLine
    simp [run]

/-- Witness for C7: a stray closing parenthesis at top level is skipped, and a
top-level step on a one-token list consumes it. -/
theorem C7_parser_totality_witness :
    run 1 (.topLevel [⟨TokType.RPAREN, ")", 1, 0⟩]) = some (none, []) ∧
    ∃ res rest, run 13 (.topLevel [⟨TokType.ATOM, "a", 1, 0⟩]) = some (res, rest) ∧
      rest.length < ([⟨TokType.ATOM, "a", 1, 0⟩] : List MeTTaToken).length :=
  ⟨C7_parser_totality.2.2.1 0 ⟨TokType.RPAREN, ")", 1, 0⟩ []
      (by decide) (by decide) (by decide),
   C7_parser_totality.2.2.2.1 13 ⟨TokType.ATOM, "a", 1, 0⟩ [] (by decide)⟩

/-! ## Lexer reconstruction (round trip) -/

theorem matchCOMMENT_pos {s : List Char} {n : Nat} (h : matchCOMMENT s = some n) : 1 ≤ n := by
  unfold matchCOMMENT at h
  split at h
  · simp only [Option.some.injEq] at h; omega
  · cases h

theorem matchChar_pos {ch : Char} {s : List Char} {n : Nat}
    (h : matchChar ch s = some n) : 1 ≤ n := by
  cases s with
  | nil => simp [matchChar] at h
  | cons c r =>
    simp only [matchChar] at h
    split at h
    · simp only [Option.some.injEq] at h; omega
    · cases h

theorem matchEXECUTE_pos {s : List Char} {n : Nat} (h : matchEXECUTE s = some n) : 1 ≤ n := by
  unfold matchEXECUTE at h
  split at h
  · simp only [Option.some.injEq] at h; omega
  · cases h

theorem matchATOMESPACE_pos {s : List Char} {n : Nat}
    (h : matchATOMESPACE s = some n) : 1 ≤ n := by
  unfold matchATOMESPACE at h
  split at h
  · split at h
    · simp only [Option.some.injEq] at h; omega
    · cases h
  · cases h

theorem matchVARIABLE_pos {s : List Char} {n : Nat}
    (h : matchVARIABLE s = some n) : 1 ≤ n := by
  unfold matchVARIABLE at h
  split at h
  · split at h
    · simp only [Option.some.injEq] at h; omega
    · cases h
  · cases h

theorem matchSTRING_pos {s : List Char} {n : Nat} (h : matchSTRING s = some n) : 1 ≤ n := by
  unfold matchSTRING at h
  split at h
  · obtain ⟨m, _, hm⟩ := Option.map_eq_some'.mp h
    omega
  · cases h

theorem numTail_pos {neg : Nat} {r : List Char} {n : Nat}
    (h : numTail neg r = some n) : 1 ≤ n := by
  unfold numTail at h
  split at h
  · cases h
  · rename_i hd
    split at h
    · split at h <;> (simp only [Option.some.injEq] at h; omega)
    · simp only [Option.some.injEq] at h; omega

theorem matchNUMBER_pos {s : List Char} {n : Nat} (h : matchNUMBER s = some n) : 1 ≤ n := by
  unfold matchNUMBER at h
  split at h
  · exact numTail_pos h
  · exact numTail_pos h

theorem matchOPERATOR_pos {s : List Char} {n : Nat} (h : matchOPERATOR s = some n) : 1 ≤ n := by
  unfold matchOPERATOR at h
  split at h
  · cases h
  · rename_i hnz
    simp only [Option.some.injEq] at h
    omega

theorem matchATOM_pos {s : List Char} {n : Nat} (h : matchATOM s = some n) : 1 ≤ n := by
  unfold matchATOM at h
  split at h
  · split at h
    · split at h <;> (simp only [Option.some.injEq] at h; omega)
    · cases h
  · cases h

theorem matchWHITESPACE_posAux : True := trivial

theorem matchWHITESPACE_pos {s : List Char} {n : Nat}
    (h : matchWHITESPACE s = some n) : 1 ≤ n := by
  unfold matchWHITESPACE at h
  split at h
  · cases h
  · rename_i hnz
    simp only [Option.some.injEq] at h
    omega

/-- Every regex alternative consumes at least one character. -/
theorem matchTok_pos {s : List Char} {k : TokType} {n : Nat}
    (h : matchTok s = some (k, n)) : 1 ≤ n := by
  unfold matchTok at h
  cases h1 : matchCOMMENT s with
  | some m =>
    simp only [h1, Option.some.injEq, Prod.mk.injEq] at h
    obtain ⟨-, rfl⟩ := h
    exact matchCOMMENT_pos h1
  | none =>
    simp only [h1] at h
    cases h2 : matchEXECUTE s with
    | some m =>
      simp only [h2, Option.some.injEq, Prod.mk.injEq] at h
      obtain ⟨-, rfl⟩ := h
      exact matchEXECUTE_pos h2
    | none =>
      simp only [h2] at h
      cases h3 : matchChar '(' s with
      | some m =>
        simp only [h3, Option.some.injEq, Prod.mk.injEq] at h
        obtain ⟨-, rfl⟩ := h
        exact matchChar_pos h3
      | none =>
        simp only [h3] at h
        cases h4 : matchChar ')' s with
        | some m =>
          simp only [h4, Option.some.injEq, Prod.mk.injEq] at h
          obtain ⟨-, rfl⟩ := h
          exact matchChar_pos h4
        | none =>
          simp only [h4] at h
          cases h5 : matchChar '[' s with
          | some m =>
            simp only [h5, Option.some.injEq, Prod.mk.injEq] at h
            obtain ⟨-, rfl⟩ := h
            exact matchChar_pos h5
          | none =>
            simp only [h5] at h
            cases h6 : matchChar ']' s with
            | some m =>
              simp only [h6, Option.some.injEq, Prod.mk.injEq] at h
              obtain ⟨-, rfl⟩ := h
              exact matchChar_pos h6
            | none =>
              simp only [h6] at h
              cases h7 : matchATOMESPACE s with
              | some m =>
                simp only [h7, Option.some.injEq, Prod.mk.injEq] at h
                obtain ⟨-, rfl⟩ := h
                exact matchATOMESPACE_pos h7
              | none =>
                simp only [h7] at h
                cases h8 : matchVARIABLE s with
                | some m =>
                  simp only [h8, Option.some.injEq, Prod.mk.injEq] at h
                  obtain ⟨-, rfl⟩ := h
                  exact matchVARIABLE_pos h8
                | none =>
                  simp only [h8] at h
                  cases h9 : matchSTRING s with
                  | some m =>
                    simp only [h9, Option.some.injEq, Prod.mk.injEq] at h
                    obtain ⟨-, rfl⟩ := h
                    exact matchSTRING_pos h9
                  | none =>
                    simp only [h9] at h
                    cases h10 : matchNUMBER s with
                    | some m =>
                      simp only [h10, Option.some.injEq, Prod.mk.injEq] at h
                      obtain ⟨-, rfl⟩ := h
                      exact matchNUMBER_pos h10
                    | none =>
                      simp only [h10] at h
                      cases h11 : matchChar '=' s with
                      | some m =>
                        simp only [h11, Option.some.injEq, Prod.mk.injEq] at h
                        obtain ⟨-, rfl⟩ := h
                        exact matchChar_pos h11
                      | none =>
                        simp only [h11] at h
                        cases h12 : matchOPERATOR s with
                        | some m =>
                          simp only [h12, Option.some.injEq, Prod.mk.injEq] at h
                          obtain ⟨-, rfl⟩ := h
                          exact matchOPERATOR_pos h12
                        | none =>
                          simp only [h12] at h
                          cases h13 : matchATOM s with
                          | some m =>
                            simp only [h13, Option.some.injEq, Prod.mk.injEq] at h
                            obtain ⟨-, rfl⟩ := h
                            exact matchATOM_pos h13
                          | none =>
                            simp only [h13] at h
                            cases h14 : matchWHITESPACE s with
                            | some m =>
                              simp only [h14, Option.some.injEq, Prod.mk.injEq] at h
                              obtain ⟨-, rfl⟩ := h
                              exact matchWHITESPACE_pos h14
                            | none =>
                              simp only [h14] at h
                              cases h15 : matchChar '\n' s with
                              | some m =>
                                simp only [h15, Option.some.injEq, Prod.mk.injEq] at h
                                obtain ⟨-, rfl⟩ := h
                                exact matchChar_pos h15
                              | none =>
                                simp only [h15] at h
                                cases h

/-- Exact reconstruction: the scan partitions the input, so concatenating all
segment texts (matched token texts, discarded whitespace and newlines, and
skipped unmatched characters) gives back the input. -/
theorem lexSegs_text : ∀ (fuel : Nat) (s : List Char), s.length ≤ fuel →
    segsText (lexSegs fuel s) = s := by
  intro fuel
  induction fuel with
  | zero =>
    intro s h
    have : s = [] := List.length_eq_zero.mp (by omega)
    subst this
    rfl
  | succ F IH =>
    intro s h
    cases s with
    | nil => rfl
    | cons c r =>
      simp only [List.length_cons] at h
      cases hm : matchTok (c :: r) with
      | none =>
        simp only [lexSegs, hm, segsText, List.map_cons, List.flatten_cons, Seg.text]
        have := IH r (by omega)
        simp only [segsText] at this
        rw [this]
        rfl
      | some p =>
        obtain ⟨k, n⟩ := p
        have hn := matchTok_pos hm
        simp only [lexSegs, hm, segsText, List.map_cons, List.flatten_cons, Seg.text]
        have hlen : ((c :: r).drop n).length ≤ F := by
          simp only [List.length_drop, List.length_cons]
          omega
        have := IH ((c :: r).drop n) hlen
        simp only [segsText] at this
        rw [this, List.take_append_drop]

/-- Token values are exactly the texts of the non-WHITESPACE, non-NEWLINE
matched segments, in order. -/
def tokTexts : List Seg → List String
  | [] => []
  | .tok .NEWLINE _ :: rest => tokTexts rest
  | .tok .WHITESPACE _ :: rest => tokTexts rest
  | .tok _ t :: rest => String.mk t :: tokTexts rest
  | .skip _ :: rest => tokTexts rest

theorem segsToToks_values : ∀ (segs : List Seg) (pos line ls : Nat),
    (segsToToks segs pos line ls).map MeTTaToken.value = tokTexts segs := by
  intro segs
  induction segs with
  | nil => intro pos line ls; rfl
  | cons s rest ih =>
    intro pos line ls
    cases s with
    | skip c => simpa only [segsToToks, tokTexts] using ih (pos + 1) line ls
    | tok k t =>
      cases k <;>
        simp only [segsToToks, tokTexts, List.map_cons, MeTTaToken.value] <;>
        rw [ih]

/-- Concatenated values of the tokens. -/
def tokensText (toks : List MeTTaToken) : List Char :=
  (toks.map (fun t => t.value.toList)).flatten

/-- Characters that are neither WHITESPACE-class nor newline. -/
def stripWsNl (s : List Char) : List Char :=
  s.filter (fun c => !(isWsChar c || c = '\n'))

/-- C6 as stated is false: `@` matches no pattern of `TOKEN_PATTERNS`, so the
lexer silently drops it; the input `"@"` tokenizes to the empty token list
although `@` is not whitespace. -/
theorem C6_counterexample :
    tokenize ['@'] = [] ∧ isWsChar '@' = false ∧ ('@' = '\n') = False ∧
    stripWsNl (tokensText (tokenize ['@'])) ≠ stripWsNl ['@'] := by
  refine ⟨by decide, by decide, by simp, by decide⟩

/-- C6 amended: concatenating the texts of the tokens together with the
whitespace and newlines discarded during scanning AND the characters at which
no token pattern matches (which the lexer silently skips) reconstructs the
input exactly; the token values are precisely the texts of the non-whitespace,
non-newline regex matches in order.  (The claim as stated fails only on
characters matching no pattern, such as `@` — see `C6_counterexample`.) -/
theorem C6_lexer_reconstruction (code : List Char) :
    segsText (lexerSegments code) = code ∧
    (tokenize code).map MeTTaToken.value = tokTexts (lexerSegments code) := by
  exact ⟨lexSegs_text code.length code le_rfl,
    segsToToks_values (lexerSegments code) 0 1 0⟩

/-! ## DSL definitions extractor (traversal_layer.py, extract_metta_definitions)

The Python function appends records to four lists while walking the AST in
preorder; `classifyNode` is the contribution of one node and `walk_metta_ast`
concatenates contributions in visit order.  Record fields are named after the
dict keys of the source (`Start_line`, `parameters_Name`, ...). -/

/-- Entry of the `functions` list. -/
structure FuncInfo where
  name : String
  startLine : Nat
  endLine : Nat
  parametersName : List String
  paramCount : Nat
deriving DecidableEq, Repr

/-- Entry of the `executions` list (`line`, `expression`). -/
structure ExecRec where
  line : Nat
  expression : String
deriving DecidableEq, Repr

/-- Entry of the `facts` list (`line`, `pattern`, `subject`). -/
structure FactRec where
  line : Nat
  pattern : String
  subject : String
deriving DecidableEq, Repr

/-- Entry of the `expressions` list (`line`, `signature`). -/
structure ExprRec where
  line : Nat
  signature : String
deriving DecidableEq, Repr

/-- The four per-construct lists accumulated by `walk_metta_ast`. -/
structure MettaRecs where
  functions : List FuncInfo
  expressions : List ExprRec
  executions : List ExecRec
  facts : List FactRec
deriving DecidableEq, Repr

/-- Empty accumulators. -/
def emptyRecs : MettaRecs := ⟨[], [], [], []⟩

/-- Pointwise concatenation (earlier visits first, as Python appends). -/
def mergeRecs (a b : MettaRecs) : MettaRecs :=
  ⟨a.functions ++ b.functions, a.expressions ++ b.expressions,
   a.executions ++ b.executions, a.facts ++ b.facts⟩

/-- Helper `get_expression_signature`: the first child's value plus argument
count, bare value for childless nodes (`"empty"` when the value is falsy). -/
def get_expression_signature (n : MeTTaNode) : String :=
  match n.children with
  | [] => if n.value = "" then "empty" else n.value
  | first :: _ =>
    if n.children.length - 1 > 0 then
      first.value ++ "(" ++ toString (n.children.length - 1) ++ " args)"
    else first.value

/-- Helper `extract_function_info`: `None` for a childless node or one without
a `function_signature` child; otherwise the first signature child's value is
the name and its `variable`-kind children are the parameters. -/
def extract_function_info (node : MeTTaNode) : Option FuncInfo :=
  if node.children = [] then none
  else
    match node.children.find? (fun c => c.type == "function_signature") with
    | none => none
    | some sig =>
      some ⟨sig.value, node.line, node.endLine,
        (sig.children.filter (fun c => c.type == "variable")).map MeTTaNode.value,
        ((sig.children.filter (fun c => c.type == "variable")).map MeTTaNode.value).length⟩

/-- One node's contribution in `walk_metta_ast`: the body of the Python
`if/elif` chain without the child recursion. -/
def classifyNode (node : MeTTaNode) : MettaRecs :=
  if node.type = "function_definition" then
    match extract_function_info node with
    | some f => ⟨[f], [], [], []⟩
    | none => emptyRecs
  else if node.type = "execution" then
    match node.children with
    | ex :: _ => ⟨[], [], [⟨node.line, get_expression_signature ex⟩], []⟩
    | [] => emptyRecs
  else if node.type = "expression" then
    match node.children with
    | [a, _, _] =>
      if a.type = "atom" then
        ⟨[], [], [], [⟨node.line, get_expression_signature node, a.value⟩]⟩
      else ⟨[], [⟨node.line, get_expression_signature node⟩], [], []⟩
    | _ => ⟨[], [⟨node.line, get_expression_signature node⟩], [], []⟩
  else emptyRecs

/-- Embedding of `walk_metta_ast`: classify the node, then recurse into the
children in order. -/
def walk_metta_ast : MeTTaNode → MettaRecs
  | .mk t v l e cs => mergeRecs (classifyNode (.mk t v l e cs)) (go cs)
where go : List MeTTaNode → MettaRecs
  | [] => emptyRecs
  | c :: cs => mergeRecs (walk_metta_ast c) (go cs)

/-- Embedding of `collect_variables_and_atomespaces` (first pass): values of
`variable` and `atomespace` nodes in visit order, duplicates included. -/
def collect_variables_and_atomespaces : MeTTaNode → List String × List String
  | .mk t v _ _ cs =>
    let tail := go cs
    if t = "variable" then (v :: tail.1, tail.2)
    else if t = "atomespace" then (tail.1, v :: tail.2)
    else tail
where go : List MeTTaNode → List String × List String
  | [] => ([], [])
  | c :: cs =>
    ((collect_variables_and_atomespaces c).1 ++ (go cs).1,
     (collect_variables_and_atomespaces c).2 ++ (go cs).2)

/-- Insertion into a code-point-sorted list of strings. -/
def insertStr (x : String) : List String → List String
  | [] => [x]
  | y :: ys => if charListLt y.toList x.toList then y :: insertStr x ys else x :: y :: ys

/-- Python `sorted(list(set(...)))` on strings: duplicates removed, then
sorted by code points. -/
def pySortedSet (l : List String) : List String :=
  l.dedup.foldr insertStr []

/-- The derived `summary` counts. -/
structure MettaSummary where
  function_count : Nat
  expression_count : Nat
  execution_count : Nat
  fact_count : Nat
  variable_count : Nat
  atomespace_count : Nat
deriving DecidableEq, Repr

/-- The record returned by `extract_metta_definitions` (the `expressions`
list itself is commented out of the returned dict, but its length still feeds
`summary.expression_count`; the dict key `variables` is the field `vars`
here, `variables` not being a usable field name). -/
structure MettaDefs where
  functions : List FuncInfo
  executions : List ExecRec
  facts : List FactRec
  vars : List String
  atomespaces : List String
  summary : MettaSummary
deriving DecidableEq, Repr

/-- Embedding of `extract_metta_definitions` on the root node (the Python
function receives the tree wrapper and reads `tree.root_node`). -/
def extract_metta_definitions (root : MeTTaNode) : MettaDefs :=
  let va := collect_variables_and_atomespaces root
  let w := walk_metta_ast root
  { functions := w.functions
    executions := w.executions
    facts := w.facts
    vars := pySortedSet va.1
    atomespaces := pySortedSet va.2
    summary := ⟨w.functions.length, w.expressions.length, w.executions.length,
      w.facts.length, (pySortedSet va.1).length, (pySortedSet va.2).length⟩ }

/-- Full DSL pipeline of the walker for one file: parse then extract. -/
def mettaPipeline (code : List Char) : MettaDefs :=
  extract_metta_definitions (parse code)

-- sanity checks
example : (mettaPipeline "(Bob parent Alex)".toList).facts =
    [⟨1, "Bob(2 args)", "Bob"⟩] := by decide
example : (mettaPipeline "(= (double $x) (* $x 2))".toList).functions =
    [⟨"double", 1, 1, ["$x"], 1⟩] := by decide
example : (mettaPipeline "!(foo 1 2)".toList).executions = [⟨1, "foo(2 args)"⟩] := by decide

/-- C2: an `expression` node is recorded as a fact (line, signature as
`pattern`, first child's value as `subject`) exactly when it has three
children whose first is an `atom`; every other `expression` node becomes a
generic expression record with line and signature.  Concretely,
`(Bob parent Alex)` yields a fact with subject `"Bob"` and `(a b)` yields a
generic expression (visible in the summary count), not a fact. -/
theorem C2_fact_classification :
    (∀ n : MeTTaNode, n.type = "expression" →
      (∀ a b c, n.children = [a, b, c] →
        (a.type = "atom" →
          classifyNode n = ⟨[], [], [], [⟨n.line, get_expression_signature n, a.value⟩]⟩) ∧
        (a.type ≠ "atom" →
          classifyNode n = ⟨[], [⟨n.line, get_expression_signature n⟩], [], []⟩)) ∧
      ((∀ a b c, n.children ≠ [a, b, c]) →
        classifyNode n = ⟨[], [⟨n.line, get_expression_signature n⟩], [], []⟩)) ∧
    (mettaPipeline "(Bob parent Alex)".toList).facts = [⟨1, "Bob(2 args)", "Bob"⟩] ∧
    (mettaPipeline "(a b)".toList).facts = [] ∧
    (mettaPipeline "(a b)".toList).summary.expression_count = 1 ∧
    (mettaPipeline "(a b)".toList).summary.fact_count = 0 := by
  refine ⟨?_, by decide, by decide, by decide, by decide⟩
  intro n ht
  constructor
  · intro a b c hch
    constructor
    · intro hatom
      simp [classifyNode, ht, hch, hatom]
    · intro hatom
      simp [classifyNode, ht, hch, hatom]
  · intro h3
    rcases hc : n.children with _ | ⟨a, _ | ⟨b, _ | ⟨c, _ | ⟨d, l⟩⟩⟩⟩
    · simp [classifyNode, ht, hc]
    · simp [classifyNode, ht, hc]
    · simp [classifyNode, ht, hc]
    · exact absurd hc (h3 a b c)
    · simp [classifyNode, ht, hc]

/-- Witness for C2 at the node parsed from `(Bob parent Alex)`. -/
theorem C2_fact_classification_witness :
    classifyNode (.mk "expression" "" 1 1
        [mkNode "atom" "Bob" 1, mkNode "atom" "parent" 1, mkNode "atom" "Alex" 1]) =
      ⟨[], [], [], [⟨1, get_expression_signature (.mk "expression" "" 1 1
        [mkNode "atom" "Bob" 1, mkNode "atom" "parent" 1, mkNode "atom" "Alex" 1]), "Bob"⟩]⟩ :=
  ((C2_fact_classification.1 (.mk "expression" "" 1 1
      [mkNode "atom" "Bob" 1, mkNode "atom" "parent" 1, mkNode "atom" "Alex" 1]) rfl).1
    _ _ _ rfl).1 rfl

/-- C4: a `function_definition` node whose first `function_signature` child is
`sig` contributes exactly one FunctionDef named `sig.value` with parameters
the values of `sig`'s `variable`-kind children in order; a
`function_definition` without a signature child contributes nothing.  The
source `(= (double $x) (* $x 2))` yields exactly one FunctionDef `double`
with parameters `["$x"]`. -/
theorem C4_function_definition_extraction :
    (∀ n : MeTTaNode, n.type = "function_definition" →
      (∀ sig, n.children.find? (fun c => c.type == "function_signature") = some sig →
        classifyNode n = ⟨[⟨sig.value, n.line, n.endLine,
          (sig.children.filter (fun c => c.type == "variable")).map MeTTaNode.value,
          ((sig.children.filter (fun c => c.type == "variable")).map MeTTaNode.value).length⟩],
          [], [], []⟩) ∧
      ((∀ c ∈ n.children, c.type ≠ "function_signature") →
        classifyNode n = emptyRecs)) ∧
    (mettaPipeline "(= (double $x) (* $x 2))".toList).functions =
      [⟨"double", 1, 1, ["$x"], 1⟩] := by
  refine ⟨?_, by decide⟩
  intro n ht
  constructor
  · intro sig hfind
    have hmem := List.mem_of_find?_eq_some hfind
    have hne : ¬(n.children = []) := by
      intro h
      rw [h] at hmem
      cases hmem
    simp [classifyNode, ht, extract_function_info, hne, hfind]
  · intro hns
    have hfind : n.children.find? (fun c => c.type == "function_signature") = none := by
      rw [List.find?_eq_none]
      intro c hc
      simpa using hns c hc
    by_cases hne : n.children = []
    · simp [classifyNode, ht, extract_function_info, hne]
    · simp [classifyNode, ht, extract_function_info, hne, hfind]

/-- Witness for C4 at the node parsed from `(= (double $x) (* $x 2))`. -/
theorem C4_function_definition_extraction_witness :
    classifyNode (.mk "function_definition" "" 1 1
        [.mk "function_signature" "double" 1 1 [mkNode "variable" "$x" 1],
         .mk "expression" "" 1 1
           [mkNode "operator" "*" 1, mkNode "variable" "$x" 1, mkNode "number" "2" 1]]) =
      ⟨[⟨"double", 1, 1, ["$x"], 1⟩], [], [], []⟩ :=
  (C4_function_definition_extraction.1 (.mk "function_definition" "" 1 1
      [.mk "function_signature" "double" 1 1 [mkNode "variable" "$x" 1],
       .mk "expression" "" 1 1
         [mkNode "operator" "*" 1, mkNode "variable" "$x" 1, mkNode "number" "2" 1]]) rfl).1
    (.mk "function_signature" "double" 1 1 [mkNode "variable" "$x" 1]) (by decide)

theorem walk_go_facts_mem {x : FactRec} : ∀ {cs : List MeTTaNode}, ∀ c ∈ cs,
    x ∈ (walk_metta_ast c).facts → x ∈ (walk_metta_ast.go cs).facts := by
  intro cs
  induction cs with
  | nil => intro c hc; cases hc
  | cons d ds ih =>
    intro c hc hx
    rcases List.mem_cons.mp hc with rfl | hc
    · simp only [walk_metta_ast.go, mergeRecs]
      exact List.mem_append_left _ hx
    · simp only [walk_metta_ast.go, mergeRecs]
      exact List.mem_append_right _ (ih c hc hx)

theorem walk_go_executions_mem {x : ExecRec} : ∀ {cs : List MeTTaNode}, ∀ c ∈ cs,
    x ∈ (walk_metta_ast c).executions → x ∈ (walk_metta_ast.go cs).executions := by
  intro cs
  induction cs with
  | nil => intro c hc; cases hc
  | cons d ds ih =>
    intro c hc hx
    rcases List.mem_cons.mp hc with rfl | hc
    · simp only [walk_metta_ast.go, mergeRecs]
      exact List.mem_append_left _ hx
    · simp only [walk_metta_ast.go, mergeRecs]
      exact List.mem_append_right _ (ih c hc hx)

/-- C10: the classification traversal visits every node — the records of any
node in any subtree, the children of `execution` nodes and function bodies
included, appear in the walk of the whole tree; `!(foo 1 2)` yields one
execution record and additionally one fact record with subject `"foo"` for
the inner three-child expression. -/
theorem C10_traversal_visits_every_node :
    (∀ (t v : String) (l e : Nat) (cs : List MeTTaNode),
      walk_metta_ast (.mk t v l e cs) =
        mergeRecs (classifyNode (.mk t v l e cs)) (walk_metta_ast.go cs)) ∧
    (∀ n, ∀ m ∈ subnodes n,
      (∀ f ∈ (classifyNode m).facts, f ∈ (walk_metta_ast n).facts) ∧
      (∀ r ∈ (classifyNode m).executions, r ∈ (walk_metta_ast n).executions)) ∧
    (mettaPipeline "!(foo 1 2)".toList).executions = [⟨1, "foo(2 args)"⟩] ∧
    (mettaPipeline "!(foo 1 2)".toList).facts = [⟨1, "foo(2 args)", "foo"⟩] := by
  refine ⟨fun t v l e cs => rfl, ?_, by decide, by decide⟩
  refine MeTTaNode.strongInd _ ?_
  intro t v l e cs ih m hm
  simp only [subnodes, List.mem_cons] at hm
  rcases hm with rfl | hm
  · constructor
    · intro f hf
      simp only [walk_metta_ast, mergeRecs]
      exact List.mem_append_left _ hf
    · intro r hr
      simp only [walk_metta_ast, mergeRecs]
      exact List.mem_append_left _ hr
  · obtain ⟨c, hc, hmc⟩ := subnodes_go_mem.mp hm
    obtain ⟨hf, hr⟩ := ih c hc m hmc
    constructor
    · intro f hfm
      simp only [walk_metta_ast, mergeRecs]
      exact List.mem_append_right _ (walk_go_facts_mem c hc (hf f hfm))
    · intro r hrm
      simp only [walk_metta_ast, mergeRecs]
      exact List.mem_append_right _ (walk_go_executions_mem c hc (hr r hrm))

/-- Witness for C10 at the execution node parsed from `!(foo 1 2)`. -/
theorem C10_traversal_visits_every_node_witness :
    (⟨1, "foo(2 args)", "foo"⟩ : FactRec) ∈
      (walk_metta_ast (.mk "execution" "!" 1 1
        [.mk "expression" "" 1 1
          [mkNode "atom" "foo" 1, mkNode "number" "1" 1, mkNode "number" "2" 1]])).facts :=
  (C10_traversal_visits_every_node.2.1
    (.mk "execution" "!" 1 1
      [.mk "expression" "" 1 1
        [mkNode "atom" "foo" 1, mkNode "number" "1" 1, mkNode "number" "2" 1]])
    (.mk "expression" "" 1 1
      [mkNode "atom" "foo" 1, mkNode "number" "1" 1, mkNode "number" "2" 1])
    (by decide)).1 _ (by decide)

/-! ## Language registry (language_layer.py) and directory walker (walker.py)

The filesystem is modelled by `FS`: a directory with named children, or a
file whose read attempt yields bytes or an IO error (`open`/`read` in the
walker's `try` block).  For non-DSL languages the combination
`get_parser`/`parse_code`/`extract_definitions` runs through the external
tree-sitter library, modelled as an arbitrary `Except`-valued function `ext`;
for `metta` files the parser handle is `None` and the whole pipeline is the
in-repository code embedded above.  Paths are accumulated as
`parent ++ "/" ++ name` standing for `os.path.abspath`. -/

/-- Extension table `EXT_MAP`. -/
def EXT_MAP : List (String × String) :=
  [(".py", "python"), (".js", "javascript"), (".java", "java"),
   (".metta", "metta"), (".mta", "metta")]

/-- Extension part of `os.path.splitext` on a file name: from the last dot,
except that leading dots do not begin an extension. -/
def splitextExt (name : String) : String :=
  let cs := name.toList
  let base := cs.drop ((cs.takeWhile (fun c => c = '.')).length)
  if base.contains '.' then
    String.mk ('.' :: (base.reverse.takeWhile (fun c => !(c = '.'))).reverse)
  else ""

/-- Embedding of `detect_language` (extension, lower-cased, looked up).
Lower-casing is written through the character list so that it evaluates in
the kernel; it agrees with `str.lower` on the ASCII extensions involved. -/
def detect_language (path : String) : Option String :=
  EXT_MAP.lookup (String.mk ((splitextExt path).toList.map Char.toLower))

-- sanity checks
example : detect_language "a.py" = some "python" := by decide
example : detect_language "A.METTA" = some "metta" := by decide
example : detect_language "noext" = none := by decide
example : detect_language ".hidden" = none := by decide

/-- FunctionDef for conventional languages (`name`, `line`, `variables` —
field `vars` here — and `num_lines`). -/
structure FuncD where
  name : String
  line : Nat
  vars : List String
  num_lines : Nat
deriving DecidableEq, Repr

/-- ClassDef (`type` is always the string `"class"` in the dicts). -/
structure ClassD where
  name : String
  line : Nat
  functions : List FuncD
deriving DecidableEq, Repr

/-- Definitions record attached to a file: the `{classes, functions}` dict of
the generic extractor, or the MeTTa record. -/
inductive Defs where
  | std (classes : List ClassD) (functions : List FuncD)
  | metta (m : MettaDefs)
deriving DecidableEq, Repr

/-- File dict assembled by the walker. -/
structure FileNodeM where
  name : String
  path : Option String
  language : Option String
  definitions : Option Defs
  parser_type : Option String
  parse_error : Option String
deriving DecidableEq, Repr

/-- Tree assembled by the walker (and consumed by the graph builder; `path`
is optional there because the builder uses `node.get`). -/
inductive PTree where
  | folder (name : String) (path : Option String) (children : List PTree)
  | file (info : FileNodeM)
deriving Repr

/-- Filesystem model. -/
inductive FS where
  | dir (name : String) (children : List FS)
  | file (name : String) (readResult : Except String (List Char))

/-- Entry name (`os.path.basename`). -/
def FS.name : FS → String
  | .dir n _ => n
  | .file n _ => n

/-- Size measure used as recursion fuel. -/
def FS.size : FS → Nat
  | .dir _ cs => go cs + 1
  | .file _ _ => 1
where go : List FS → Nat
  | [] => 0
  | c :: cs => FS.size c + go cs


/-- Insertion into a name-sorted list (stable). -/
def insertByName (x : FS) : List FS → List FS
  | [] => [x]
  | y :: ys => if nameLe x.name y.name then x :: y :: ys else y :: insertByName x ys

/-- `sorted(os.listdir(path))`: the children sorted by name. -/
def sortByName : List FS → List FS
  | [] => []
  | x :: xs => insertByName x (sortByName xs)

/-- The iteration order of the walker's list comprehension: children sorted
by name, hidden entries (leading dot) excluded. -/
def listing (cs : List FS) : List FS :=
  (sortByName cs).filter (fun c => !(hiddenName c.name))

/-- The fallible part of per-file processing: read the bytes, then parse and
extract — through the embedded DSL pipeline for `metta`, through the external
parser stack (`get_parser`, tree-sitter `parse`, `extract_definitions`) for
every other detected language. -/
def file_pipeline (ext : String → List Char → Except String Defs)
    (lang : String) (rd : Except String (List Char)) : Except String Defs := do
  let bytes ← rd
  if lang = "metta" then pure (Defs.metta (extract_metta_definitions (parse bytes)))
  else ext lang bytes

/-- Per-file body of `build_tree.process_path`: no detected language leaves
the bare file dict; otherwise the fallible pipeline either attaches
`language`, `definitions` and `parser_type`, or (on any raised error) only
`parse_error` — the except-clause at the file boundary. -/
def process_file (ext : String → List Char → Except String Defs)
    (name : String) (rd : Except String (List Char)) (path : String) : FileNodeM :=
  match detect_language name with
  | none => ⟨name, some path, none, none, none, none⟩
  | some lang =>
    match file_pipeline ext lang rd with
    | .ok d => ⟨name, some path, some lang, some d,
        some (if lang = "metta" then "custom_metta" else "tree_sitter"), none⟩
    | .error e => ⟨name, some path, none, none, none, some e⟩

/-- Fuel-indexed embedding of `build_tree.process_path`; the zero-fuel folder
arm is unreachable for the fuel `FS.size` (see `build_tree_fuel_stable`). -/
def build_tree_fuel (ext : String → List Char → Except String Defs) :
    Nat → FS → String → PTree
  | _, .file nm rd, parent => .file (process_file ext nm rd (parent ++ "/" ++ nm))
  | 0, .dir nm _, parent => .folder nm (some (parent ++ "/" ++ nm)) []
  | fuel + 1, .dir nm cs, parent =>
    .folder nm (some (parent ++ "/" ++ nm))
      ((listing cs).map (fun c => build_tree_fuel ext fuel c (parent ++ "/" ++ nm)))

/-- `process_path` at one filesystem entry. -/
def processPath (ext : String → List Char → Except String Defs)
    (fs : FS) (parent : String) : PTree :=
  build_tree_fuel ext fs.size fs parent

/-- Embedding of `build_tree` (and of `walk_and_parse`). -/
def build_tree (ext : String → List Char → Except String Defs) (fs : FS) : PTree :=
  processPath ext fs ""

theorem size_pos (fs : FS) : 1 ≤ fs.size := by
  cases fs <;> simp [FS.size]

theorem mem_size_le {c : FS} : ∀ {cs : List FS}, c ∈ cs → FS.size c ≤ FS.size.go cs := by
  intro cs
  induction cs with
  | nil => intro h; cases h
  | cons d ds ih =>
    intro h
    rcases List.mem_cons.mp h with rfl | h
    · simp [FS.size.go]
    · have := ih h
      simp only [FS.size.go]
      omega

theorem mem_insertByName {c x : FS} : ∀ {l : List FS},
    c ∈ insertByName x l → c = x ∨ c ∈ l := by
  intro l
  induction l with
  | nil => intro h; simp [insertByName] at h; exact Or.inl h
  | cons y ys ih =>
    intro h
    simp only [insertByName] at h
    split at h
    · rcases List.mem_cons.mp h with rfl | h
      · exact Or.inl rfl
      · exact Or.inr h
    · rcases List.mem_cons.mp h with rfl | h
      · exact Or.inr (List.mem_cons_self _ _)
      · rcases ih h with rfl | h
        · exact Or.inl rfl
        · exact Or.inr (List.mem_cons_of_mem _ h)

theorem mem_sortByName {c : FS} : ∀ {l : List FS}, c ∈ sortByName l → c ∈ l := by
  intro l
  induction l with
  | nil => intro h; simp [sortByName] at h
  | cons y ys ih =>
    intro h
    rcases mem_insertByName h with rfl | h
    · exact List.mem_cons_self _ _
    · exact List.mem_cons_of_mem _ (ih h)

theorem mem_listing {c : FS} {cs : List FS} (h : c ∈ listing cs) : c ∈ cs :=
  mem_sortByName (List.mem_of_mem_filter h)

/-- Any fuel at least the size computes the same tree: the walker's recursion
terminates and is fully determined by the filesystem. -/
theorem build_tree_fuel_stable (ext : String → List Char → Except String Defs) :
    ∀ (f1 : Nat) (fs : FS) (f2 : Nat) (parent : String),
      fs.size ≤ f1 → fs.size ≤ f2 →
      build_tree_fuel ext f1 fs parent = build_tree_fuel ext f2 fs parent := by
  intro f1
  induction f1 with
  | zero =>
    intro fs f2 parent h1 h2
    have := size_pos fs
    omega
  | succ F ih =>
    intro fs f2 parent h1 h2
    cases fs with
    | file nm rd => cases f2 <;> rfl
    | dir nm cs =>
      cases f2 with
      | zero =>
        have := size_pos (FS.dir nm cs)
        omega
      | succ F2 =>
        simp only [build_tree_fuel, PTree.folder.injEq, true_and]
        apply List.map_congr_left
        intro c hc
        have hsz : FS.size c ≤ FS.size.go cs := mem_size_le (mem_listing hc)
        simp only [FS.size] at h1 h2
        exact ih c F2 (parent ++ "/" ++ nm) (by omega) (by omega)

/-- Counts of definition-bearing and error-bearing file nodes in a tree. -/
def countDefs : PTree → Nat
  | .folder _ _ cs => go cs
  | .file info => if info.definitions.isSome then 1 else 0
where go : List PTree → Nat
  | [] => 0
  | c :: cs => countDefs c + go cs

/-- Counts of file nodes carrying `parse_error`. -/
def countErrs : PTree → Nat
  | .folder _ _ cs => go cs
  | .file info => if info.parse_error.isSome then 1 else 0
where go : List PTree → Nat
  | [] => 0
  | c :: cs => countErrs c + go cs

/-- A valid one-line MeTTa source. -/
def okSrc : List Char := "(= (double $x) (* $x 2))".toList

/-- A directory of ten MeTTa files of which exactly one (`f3.metta`) fails at
the read step. -/
def tenFiles : FS := .dir "root"
  [.file "f0.metta" (.ok okSrc), .file "f1.metta" (.ok okSrc),
   .file "f2.metta" (.ok okSrc), .file "f3.metta" (.error "IOError: unreadable"),
   .file "f4.metta" (.ok okSrc), .file "f5.metta" (.ok okSrc),
   .file "f6.metta" (.ok okSrc), .file "f7.metta" (.ok okSrc),
   .file "f8.metta" (.ok okSrc), .file "f9.metta" (.ok okSrc)]

/-- External parser stack that always fails (tree-sitter unavailable); never
consulted for MeTTa files. -/
def extUnavailable : String → List Char → Except String Defs :=
  fun _ _ => .error "ParserUnavailable"

/-- C1: per-file failures are contained.  (1) A directory's tree is always
the folder node whose children are the processed visible children in sorted
order, each child's subtree a function of that child alone — so a failure in
one file cannot change a sibling's result or abort the walk; (2) a file whose
read/parse/extract pipeline raises is mapped to a FileNode carrying exactly
the error string, with no definitions attached; (3) concretely, ten MeTTa
files of which one fails yield nine `definitions`-bearing nodes and exactly
one `parse_error`-bearing node. -/
theorem C1_walker_error_isolation :
    (∀ (ext : String → List Char → Except String Defs) (name parent : String)
        (cs : List FS),
      processPath ext (.dir name cs) parent =
        .folder name (some (parent ++ "/" ++ name))
          ((listing cs).map (fun c => processPath ext c (parent ++ "/" ++ name)))) ∧
    (∀ (ext : String → List Char → Except String Defs) (name parent : String)
        (rd : Except String (List Char)) (lang e : String),
      detect_language name = some lang →
      file_pipeline ext lang rd = .error e →
      processPath ext (.file name rd) parent =
        .file ⟨name, some (parent ++ "/" ++ name), none, none, none, some e⟩) ∧
    countDefs (build_tree extUnavailable tenFiles) = 9 ∧
    countErrs (build_tree extUnavailable tenFiles) = 1 := by
  refine ⟨?_, ?_, by decide, by decide⟩
  · intro ext name parent cs
    simp only [processPath, FS.size, build_tree_fuel]
    refine congrArg (PTree.folder name (some (parent ++ "/" ++ name)))
      (List.map_congr_left ?_)
    intro c hc
    have hsz : FS.size c ≤ FS.size.go cs := mem_size_le (mem_listing hc)
    exact build_tree_fuel_stable ext (FS.size.go cs) c (FS.size c)
      (parent ++ "/" ++ name) hsz le_rfl
  · intro ext name parent rd lang e hdet hpipe
    simp only [processPath, FS.size, build_tree_fuel, process_file, hdet, hpipe]

/-- Witness for C1: a Python file whose external parse raises is recorded
with `parse_error` only. -/
theorem C1_walker_error_isolation_witness :
    processPath (fun _ _ => .error "boom") (.file "a.py" (.ok [])) "" =
      .file ⟨"a.py", some "/a.py", none, none, none, some "boom"⟩ :=
  C1_walker_error_isolation.2.1 (fun _ _ => .error "boom") "a.py" "" (.ok [])
    "python" "boom" (by decide) rfl

/-- C8: once a file is processed, its node carries `definitions` exactly when
it does not carry `parse_error`, and a file with no detected language carries
neither. -/
theorem C8_definitions_xor_parse_error
    (ext : String → List Char → Except String Defs)
    (name path : String) (rd : Except String (List Char)) :
    (detect_language name = none →
      (process_file ext name rd path).definitions = none ∧
      (process_file ext name rd path).parse_error = none) ∧
    (∀ lang, detect_language name = some lang →
      ((process_file ext name rd path).definitions.isSome ∧
       (process_file ext name rd path).parse_error = none) ∨
      ((process_file ext name rd path).definitions = none ∧
       (process_file ext name rd path).parse_error.isSome)) := by
  constructor
  · intro hdet
    simp [process_file, hdet]
  · intro lang hdet
    cases hp : file_pipeline ext lang rd with
    | ok d => exact Or.inl (by simp [process_file, hdet, hp])
    | error e => exact Or.inr (by simp [process_file, hdet, hp])

/-- Witness for C8: a file with no known extension gets neither field; a
Python file whose pipeline fails gets only `parse_error`. -/
theorem C8_definitions_xor_parse_error_witness :
    ((process_file extUnavailable "README.txt" (.ok []) "/README.txt").definitions = none ∧
     (process_file extUnavailable "README.txt" (.ok []) "/README.txt").parse_error = none) ∧
    (((process_file extUnavailable "a.py" (.ok []) "/a.py").definitions.isSome ∧
      (process_file extUnavailable "a.py" (.ok []) "/a.py").parse_error = none) ∨
     ((process_file extUnavailable "a.py" (.ok []) "/a.py").definitions = none ∧
      (process_file extUnavailable "a.py" (.ok []) "/a.py").parse_error.isSome)) :=
  ⟨(C8_definitions_xor_parse_error extUnavailable "README.txt" "/README.txt" (.ok [])).1
      (by decide),
   (C8_definitions_xor_parse_error extUnavailable "a.py" "/a.py" (.ok [])).2
      "python" (by decide)⟩

/-! ## Tree-to-graph builder (generate_ast_docs.py, build_graph_from_tree)

The graph is modelled by the sequences of `add_node` and `add_edge` calls (in
call order).  networkx's `DiGraph` deduplicates node ids and parallel
`(u, v)` pairs; the membership facts proved about the claims are facts about
which nodes and edges the builder adds, which is what the sequences record. -/

/-- Node adds `(id, type, name)` and edge adds `(from, to, relation)`. -/
structure GraphM where
  nodes : List (String × String × String)
  edges : List (String × String × String)
deriving DecidableEq, Repr

/-- Empty `nx.DiGraph()`. -/
def emptyG : GraphM := ⟨[], []⟩

/-- One `G.add_node(id, type=ty, name=nm)` call. -/
def addNodeG (g : GraphM) (id ty nm : String) : GraphM :=
  ⟨g.nodes ++ [(id, ty, nm)], g.edges⟩

/-- One `G.add_edge(u, v, relation=rel)` call. -/
def addEdgeG (g : GraphM) (u v rel : String) : GraphM :=
  ⟨g.nodes, g.edges ++ [(u, v, rel)]⟩

/-- `node.get("path", node.get("name"))`. -/
def node_id : PTree → String
  | .folder name pathQ _ => pathQ.getD name
  | .file info => info.path.getD info.name

/-- `node["name"]`. -/
def PTree.nameT : PTree → String
  | .folder n _ _ => n
  | .file info => info.name

/-- `node["type"]`. -/
def PTree.typeT : PTree → String
  | .folder _ _ _ => "folder"
  | .file _ => "file"

/-- `defs.get("classes", [])`: the MeTTa dict has no `classes` key. -/
def Defs.classesL : Defs → List ClassD
  | .std cs _ => cs
  | .metta _ => []

/-- Names in `defs.get("functions", [])` (each entry's `name` key; MeTTa
function entries carry a `name` key too). -/
def Defs.funcNames : Defs → List String
  | .std _ fs => fs.map FuncD.name
  | .metta m => m.functions.map FuncInfo.name

/-- The inner loop over a class's `functions`. -/
def addClassMethods (classId : String) : List FuncD → GraphM → GraphM
  | [], g => g
  | f :: fs, g =>
    addClassMethods classId fs
      (addEdgeG (addNodeG g (classId ++ ":" ++ f.name) "function" f.name)
        classId (classId ++ ":" ++ f.name) "hasMethod")

/-- The loop over `defs.get("classes", [])`. -/
def addClassesG (fileId : String) : List ClassD → GraphM → GraphM
  | [], g => g
  | c :: cs, g =>
    addClassesG fileId cs
      (addClassMethods (fileId ++ ":" ++ c.name) c.functions
        (addEdgeG (addNodeG g (fileId ++ ":" ++ c.name) "class" c.name)
          fileId (fileId ++ ":" ++ c.name) "defines"))

/-- The loop over `defs.get("functions", [])`. -/
def addFuncsG (fileId : String) : List String → GraphM → GraphM
  | [], g => g
  | fn :: fns, g =>
    addFuncsG fileId fns
      (addEdgeG (addNodeG g (fileId ++ ":" ++ fn) "function" fn)
        fileId (fileId ++ ":" ++ fn) "defines")

/-- Embedding of the recursive `add_node(node, parent)`: add the graph node
keyed by path-or-name, the `contains` edge when a parent exists, the
definition-derived nodes and edges for files, then recurse into children
(files have no `children` key). -/
def add_node_rec : PTree → Option String → GraphM → GraphM
  | .folder name pathQ cs, parent, g =>
    let nid := pathQ.getD name
    let g1 := addNodeG g nid "folder" name
    let g2 := match parent with
      | some p => addEdgeG g1 p nid "contains"
      | none => g1
    go cs nid g2
  | .file info, parent, g =>
    let nid := info.path.getD info.name
    let g1 := addNodeG g nid "file" info.name
    let g2 := match parent with
      | some p => addEdgeG g1 p nid "contains"
      | none => g1
    match info.definitions with
    | some d => addFuncsG nid d.funcNames (addClassesG nid d.classesL g2)
    | none => g2
where go : List PTree → String → GraphM → GraphM
  | [], _, g => g
  | c :: cs, pid, g => go cs pid (add_node_rec c (some pid) g)

/-- Embedding of `build_graph_from_tree`. -/
def build_graph_from_tree (t : PTree) : GraphM := add_node_rec t none emptyG

/-- Tree nodes visited by the builder together with the parent id passed to
`add_node` at that visit. -/
def visits : PTree → Option String → List (PTree × Option String)
  | .folder name pathQ cs, p =>
    (.folder name pathQ cs, p) :: go cs (pathQ.getD name)
  | .file info, p => [(.file info, p)]
where go : List PTree → String → List (PTree × Option String)
  | [], _ => []
  | c :: cs, pid => visits c (some pid) ++ go cs pid

/-- Structural induction for the nested inductive `PTree`. -/
theorem PTree.strongRecMem (P : PTree → Prop)
    (hf : ∀ info, P (.file info))
    (hd : ∀ name pathQ cs, (∀ c ∈ cs, P c) → P (.folder name pathQ cs)) :
    ∀ t, P t := by
  intro t
  refine PTree.rec (motive_1 := fun t => P t) (motive_2 := fun l => ∀ c ∈ l, P c)
    ?_ ?_ ?_ ?_ t
  · intro name pathQ cs ih
    exact hd name pathQ cs ih
  · intro info
    exact hf info
  · intro c hc
    cases hc
  · intro hd' tl h1 h2 c hc
    cases hc with
    | head => exact h1
    | tail _ hm => exact h2 c hm

/-- Graph growth: everything already added stays added. -/
def presG (g g' : GraphM) : Prop :=
  (∀ x ∈ g.nodes, x ∈ g'.nodes) ∧ (∀ x ∈ g.edges, x ∈ g'.edges)

theorem presG_refl (g : GraphM) : presG g g := ⟨fun _ h => h, fun _ h => h⟩

theorem presG_trans {g1 g2 g3 : GraphM} (h1 : presG g1 g2) (h2 : presG g2 g3) :
    presG g1 g3 :=
  ⟨fun x hx => h2.1 x (h1.1 x hx), fun x hx => h2.2 x (h1.2 x hx)⟩

theorem presG_addNodeG (g : GraphM) (id ty nm : String) : presG g (addNodeG g id ty nm) :=
  ⟨fun _ hx => List.mem_append_left _ hx, fun _ hx => hx⟩

theorem presG_addEdgeG (g : GraphM) (u v rel : String) : presG g (addEdgeG g u v rel) :=
  ⟨fun _ hx => hx, fun _ hx => List.mem_append_left _ hx⟩

theorem presG_addClassMethods (classId : String) :
    ∀ (fs : List FuncD) (g : GraphM), presG g (addClassMethods classId fs g) := by
  intro fs
  induction fs with
  | nil => intro g; exact presG_refl g
  | cons f fs ih =>
    intro g
    exact presG_trans (presG_trans (presG_addNodeG _ _ _ _) (presG_addEdgeG _ _ _ _)) (ih _)

theorem presG_addClassesG (fileId : String) :
    ∀ (cs : List ClassD) (g : GraphM), presG g (addClassesG fileId cs g) := by
  intro cs
  induction cs with
  | nil => intro g; exact presG_refl g
  | cons c cs ih =>
    intro g
    exact presG_trans
      (presG_trans (presG_trans (presG_addNodeG _ _ _ _) (presG_addEdgeG _ _ _ _))
        (presG_addClassMethods _ _ _)) (ih _)

theorem presG_addFuncsG (fileId : String) :
    ∀ (fns : List String) (g : GraphM), presG g (addFuncsG fileId fns g) := by
  intro fns
  induction fns with
  | nil => intro g; exact presG_refl g
  | cons fn fns ih =>
    intro g
    exact presG_trans (presG_trans (presG_addNodeG _ _ _ _) (presG_addEdgeG _ _ _ _)) (ih _)

theorem presG_add_node_rec : ∀ (t : PTree) (p : Option String) (g : GraphM),
    presG g (add_node_rec t p g) := by
  have main : ∀ t : PTree, ∀ (p : Option String) (g : GraphM),
      presG g (add_node_rec t p g) := by
    refine PTree.strongRecMem _ ?_ ?_
    · intro info p g
      cases p with
      | none =>
        cases hd : info.definitions with
        | none =>
          simp only [add_node_rec, hd]
          exact presG_addNodeG _ _ _ _
        | some d =>
          simp only [add_node_rec, hd]
          exact presG_trans (presG_addNodeG _ _ _ _)
            (presG_trans (presG_addClassesG _ _ _) (presG_addFuncsG _ _ _))
      | some q =>
        cases hd : info.definitions with
        | none =>
          simp only [add_node_rec, hd]
          exact presG_trans (presG_addNodeG _ _ _ _) (presG_addEdgeG _ _ _ _)
        | some d =>
          simp only [add_node_rec, hd]
          exact presG_trans (presG_addNodeG _ _ _ _)
            (presG_trans (presG_addEdgeG _ _ _ _)
              (presG_trans (presG_addClassesG _ _ _) (presG_addFuncsG _ _ _)))
    · intro name pathQ cs ih p g
      have hgo : ∀ (l : List PTree), (∀ c ∈ l, ∀ (p' : Option String) (g' : GraphM),
          presG g' (add_node_rec c p' g')) →
          ∀ (pid : String) (g' : GraphM), presG g' (add_node_rec.go l pid g') := by
        intro l
        induction l with
        | nil => intro _ pid g'; exact presG_refl _
        | cons c cs ihl =>
          intro hall pid g'
          refine presG_trans (hall c (by simp) (some pid) g') ?_
          exact ihl (fun c' hc' => hall c' (by simp [hc'])) pid _
      cases p with
      | none =>
        simp only [add_node_rec]
        exact presG_trans (presG_addNodeG _ _ _ _) (hgo cs ih _ _)
      | some q =>
        simp only [add_node_rec]
        exact presG_trans (presG_addNodeG _ _ _ _)
          (presG_trans (presG_addEdgeG _ _ _ _) (hgo cs ih _ _))
  exact main

/-- What the builder is claimed to add for one visited node: the graph node
keyed by path-or-name with its type and name attributes, the `contains` edge
from the parent when there is one, and for a file with definitions the
class/method/function nodes and `defines`/`hasMethod` edges. -/
def visitFacts (g : GraphM) : PTree × Option String → Prop
  | (s, p) =>
    (node_id s, s.typeT, s.nameT) ∈ g.nodes ∧
    (∀ pid, p = some pid → (pid, node_id s, "contains") ∈ g.edges) ∧
    (match s with
     | .file info =>
       match info.definitions with
       | some d =>
         (∀ c ∈ d.classesL,
            (node_id s ++ ":" ++ c.name, "class", c.name) ∈ g.nodes ∧
            (node_id s, node_id s ++ ":" ++ c.name, "defines") ∈ g.edges ∧
            ∀ f ∈ c.functions,
              (node_id s ++ ":" ++ c.name ++ ":" ++ f.name, "function", f.name) ∈ g.nodes ∧
              (node_id s ++ ":" ++ c.name, node_id s ++ ":" ++ c.name ++ ":" ++ f.name,
                "hasMethod") ∈ g.edges) ∧
         (∀ fn ∈ d.funcNames,
            (node_id s ++ ":" ++ fn, "function", fn) ∈ g.nodes ∧
            (node_id s, node_id s ++ ":" ++ fn, "defines") ∈ g.edges)
       | none => True
     | .folder _ _ _ => True)

theorem visitFacts_mono {g g' : GraphM} (hp : presG g g') :
    ∀ {v : PTree × Option String}, visitFacts g v → visitFacts g' v := by
  intro v hv
  obtain ⟨s, p⟩ := v
  obtain ⟨h1, h2, h3⟩ := hv
  refine ⟨hp.1 _ h1, fun pid hpid => hp.2 _ (h2 pid hpid), ?_⟩
  cases s with
  | folder name pathQ cs => exact trivial
  | file info =>
    cases hd : info.definitions with
    | none => simp only [hd]
    | some d =>
      simp only [hd] at h3 ⊢
      obtain ⟨hc, hf⟩ := h3
      refine ⟨?_, ?_⟩
      · intro c hcm
        obtain ⟨a, b, c3⟩ := hc c hcm
        exact ⟨hp.1 _ a, hp.2 _ b, fun f hfm =>
          ⟨hp.1 _ ((c3 f hfm).1), hp.2 _ ((c3 f hfm).2)⟩⟩
      · intro fn hfn
        obtain ⟨a, b⟩ := hf fn hfn
        exact ⟨hp.1 _ a, hp.2 _ b⟩

theorem mem_addNodeG (g : GraphM) (id ty nm : String) :
    (id, ty, nm) ∈ (addNodeG g id ty nm).nodes := by
  simp [addNodeG]

theorem mem_addEdgeG (g : GraphM) (u v rel : String) :
    (u, v, rel) ∈ (addEdgeG g u v rel).edges := by
  simp [addEdgeG]

theorem addClassMethods_facts (classId : String) :
    ∀ (fs : List FuncD) (g : GraphM), ∀ f ∈ fs,
      (classId ++ ":" ++ f.name, "function", f.name) ∈ (addClassMethods classId fs g).nodes ∧
      (classId, classId ++ ":" ++ f.name, "hasMethod") ∈ (addClassMethods classId fs g).edges := by
  intro fs
  induction fs with
  | nil => intro g f hf; cases hf
  | cons f0 fs ih =>
    intro g f hf
    rcases List.mem_cons.mp hf with rfl | hf
    · simp only [addClassMethods]
      constructor
      · exact (presG_addClassMethods _ _ _).1 _
          ((presG_addEdgeG _ _ _ _).1 _ (mem_addNodeG _ _ _ _))
      · exact (presG_addClassMethods _ _ _).2 _ (mem_addEdgeG _ _ _ _)
    · simp only [addClassMethods]
      exact ih _ f hf

theorem addClassesG_facts (fileId : String) :
    ∀ (cs : List ClassD) (g : GraphM), ∀ c ∈ cs,
      (fileId ++ ":" ++ c.name, "class", c.name) ∈ (addClassesG fileId cs g).nodes ∧
      (fileId, fileId ++ ":" ++ c.name, "defines") ∈ (addClassesG fileId cs g).edges ∧
      ∀ f ∈ c.functions,
        (fileId ++ ":" ++ c.name ++ ":" ++ f.name, "function", f.name) ∈
          (addClassesG fileId cs g).nodes ∧
        (fileId ++ ":" ++ c.name, fileId ++ ":" ++ c.name ++ ":" ++ f.name, "hasMethod") ∈
          (addClassesG fileId cs g).edges := by
  intro cs
  induction cs with
  | nil => intro g c hc; cases hc
  | cons c0 cs ih =>
    intro g c hc
    rcases List.mem_cons.mp hc with rfl | hc
    · simp only [addClassesG]
      refine ⟨?_, ?_, ?_⟩
      · exact (presG_addClassesG _ _ _).1 _ ((presG_addClassMethods _ _ _).1 _
          ((presG_addEdgeG _ _ _ _).1 _ (mem_addNodeG _ _ _ _)))
      · exact (presG_addClassesG _ _ _).2 _ ((presG_addClassMethods _ _ _).2 _
          (mem_addEdgeG _ _ _ _))
      · intro f hf
        have := addClassMethods_facts (fileId ++ ":" ++ c.name) c.functions
          (addEdgeG (addNodeG g (fileId ++ ":" ++ c.name) "class" c.name)
            fileId (fileId ++ ":" ++ c.name) "defines") f hf
        exact ⟨(presG_addClassesG _ _ _).1 _ this.1, (presG_addClassesG _ _ _).2 _ this.2⟩
    · simp only [addClassesG]
      exact ih _ c hc

theorem addFuncsG_facts (fileId : String) :
    ∀ (fns : List String) (g : GraphM), ∀ fn ∈ fns,
      (fileId ++ ":" ++ fn, "function", fn) ∈ (addFuncsG fileId fns g).nodes ∧
      (fileId, fileId ++ ":" ++ fn, "defines") ∈ (addFuncsG fileId fns g).edges := by
  intro fns
  induction fns with
  | nil => intro g fn hfn; cases hfn
  | cons fn0 fns ih =>
    intro g fn hfn
    rcases List.mem_cons.mp hfn with rfl | hfn
    · simp only [addFuncsG]
      constructor
      · exact (presG_addFuncsG _ _ _).1 _
          ((presG_addEdgeG _ _ _ _).1 _ (mem_addNodeG _ _ _ _))
      · exact (presG_addFuncsG _ _ _).2 _ (mem_addEdgeG _ _ _ _)
    · simp only [addFuncsG]
      exact ih _ fn hfn

theorem presG_add_node_go : ∀ (l : List PTree) (pid : String) (g : GraphM),
    presG g (add_node_rec.go l pid g) := by
  intro l
  induction l with
  | nil => intro pid g; exact presG_refl _
  | cons c cs ih =>
    intro pid g
    exact presG_trans (presG_add_node_rec c (some pid) g) (ih pid _)

/-- Facts for the visited node itself. -/
theorem add_node_rec_self_facts : ∀ (t : PTree) (p : Option String) (g : GraphM),
    visitFacts (add_node_rec t p g) (t, p) := by
  intro t p g
  cases t with
  | folder name pathQ cs =>
    cases p with
    | none =>
      simp only [add_node_rec]
      refine ⟨(presG_add_node_go _ _ _).1 _ (mem_addNodeG _ _ _ _), ?_, trivial⟩
      intro pid hpid
      cases hpid
    | some q =>
      simp only [add_node_rec]
      refine ⟨(presG_add_node_go _ _ _).1 _
        ((presG_addEdgeG _ _ _ _).1 _ (mem_addNodeG _ _ _ _)), ?_, trivial⟩
      intro pid hpid
      obtain ⟨rfl⟩ : q = pid := by injection hpid
      exact (presG_add_node_go _ _ _).2 _ (mem_addEdgeG _ _ _ _)
  | file info =>
    cases hd : info.definitions with
    | none =>
      cases p with
      | none =>
        simp only [add_node_rec, hd]
        refine ⟨mem_addNodeG _ _ _ _, ?_, ?_⟩
        · intro pid hpid
          cases hpid
        · simp only [hd]
      | some q =>
        simp only [add_node_rec, hd]
        refine ⟨(presG_addEdgeG _ _ _ _).1 _ (mem_addNodeG _ _ _ _), ?_, ?_⟩
        · intro pid hpid
          obtain ⟨rfl⟩ : q = pid := by injection hpid
          exact mem_addEdgeG _ _ _ _
        · simp only [hd]
    | some d =>
      have hpres : ∀ g' : GraphM, presG g' (addFuncsG (info.path.getD info.name) d.funcNames
          (addClassesG (info.path.getD info.name) d.classesL g')) :=
        fun g' => presG_trans (presG_addClassesG _ _ _) (presG_addFuncsG _ _ _)
      cases p with
      | none =>
        simp only [add_node_rec, hd]
        refine ⟨(hpres _).1 _ (mem_addNodeG _ _ _ _), ?_, ?_⟩
        · intro pid hpid
          cases hpid
        simp only [hd, node_id]
        refine ⟨?_, ?_⟩
        · intro c hc
          obtain ⟨a, b, c3⟩ := addClassesG_facts _ d.classesL _ c hc
          exact ⟨(presG_addFuncsG _ _ _).1 _ a, (presG_addFuncsG _ _ _).2 _ b,
            fun f hf => ⟨(presG_addFuncsG _ _ _).1 _ (c3 f hf).1,
              (presG_addFuncsG _ _ _).2 _ (c3 f hf).2⟩⟩
        · intro fn hfn
          exact addFuncsG_facts _ d.funcNames _ fn hfn
      | some q =>
        simp only [add_node_rec, hd]
        refine ⟨(hpres _).1 _ ((presG_addEdgeG _ _ _ _).1 _ (mem_addNodeG _ _ _ _)), ?_, ?_⟩
        · intro pid hpid
          obtain ⟨rfl⟩ : q = pid := by injection hpid
          exact (hpres _).2 _ (mem_addEdgeG _ _ _ _)
        · simp only [hd, node_id]
          refine ⟨?_, ?_⟩
          · intro c hc
            obtain ⟨a, b, c3⟩ := addClassesG_facts _ d.classesL _ c hc
            exact ⟨(presG_addFuncsG _ _ _).1 _ a, (presG_addFuncsG _ _ _).2 _ b,
              fun f hf => ⟨(presG_addFuncsG _ _ _).1 _ (c3 f hf).1,
                (presG_addFuncsG _ _ _).2 _ (c3 f hf).2⟩⟩
          · intro fn hfn
            exact addFuncsG_facts _ d.funcNames _ fn hfn

theorem visits_go_mem {v : PTree × Option String} :
    ∀ {l : List PTree} {pid : String},
      v ∈ visits.go l pid → ∃ c ∈ l, v ∈ visits c (some pid) := by
  intro l
  induction l with
  | nil => intro pid h; cases h
  | cons c cs ih =>
    intro pid h
    simp only [visits.go, List.mem_append] at h
    rcases h with h | h
    · exact ⟨c, by simp, h⟩
    · obtain ⟨c', hc', hv⟩ := ih h
      exact ⟨c', by simp [hc'], hv⟩

/-- Facts for every visit below a node. -/
theorem add_node_rec_facts : ∀ (t : PTree) (p : Option String) (g : GraphM),
    ∀ v ∈ visits t p, visitFacts (add_node_rec t p g) v := by
  have main : ∀ t : PTree, ∀ (p : Option String) (g : GraphM),
      ∀ v ∈ visits t p, visitFacts (add_node_rec t p g) v := by
    refine PTree.strongRecMem _ ?_ ?_
    · intro info p g v hv
      simp only [visits, List.mem_singleton] at hv
      subst hv
      exact add_node_rec_self_facts _ p g
    · intro name pathQ cs ih p g v hv
      simp only [visits, List.mem_cons] at hv
      rcases hv with rfl | hv
      · exact add_node_rec_self_facts _ p g
      · obtain ⟨c, hc, hvc⟩ := visits_go_mem hv
        have hgo : ∀ (l : List PTree), (∀ c' ∈ l, ∀ (p' : Option String) (g' : GraphM),
            ∀ v' ∈ visits c' p', visitFacts (add_node_rec c' p' g') v') →
            ∀ (g' : GraphM), ∀ c' ∈ l, ∀ v' ∈ visits c' (some (pathQ.getD name)),
              visitFacts (add_node_rec.go l (pathQ.getD name) g') v' := by
          intro l
          induction l with
          | nil => intro _ g' c' hc'; cases hc'
          | cons d ds ihl =>
            intro hall g' c' hc' v' hv'
            rcases List.mem_cons.mp hc' with rfl | hc'
            · simp only [add_node_rec.go]
              exact visitFacts_mono (presG_add_node_go ds _ _)
                (hall c' (by simp) (some (pathQ.getD name)) g' v' hv')
            · simp only [add_node_rec.go]
              exact ihl (fun x hx => hall x (by simp [hx])) _ c' hc' v' hv'
        cases p with
        | none =>
          simp only [add_node_rec]
          exact hgo cs ih _ c hc v hvc
        | some q =>
          simp only [add_node_rec]
          exact hgo cs ih _ c hc v hvc
  exact main

/-- C5: for every tree, the graph builder adds one node per visited tree node
keyed by its absolute path (or name when no path) carrying its type and name,
a `contains` edge from parent to child; and, for each file carrying
definitions: per class a `{file_id}:{class_name}` node with a `defines` edge
from the file, per class function a `{class_id}:{func_name}` node with a
`hasMethod` edge from the class, and per top-level function a
`{file_id}:{func_name}` node with a `defines` edge from the file. -/
theorem C5_graph_builder (t : PTree) :
    ∀ v ∈ visits t none, visitFacts (build_graph_from_tree t) v := by
  intro v hv
  exact add_node_rec_facts t none emptyG v hv

/-- Witness for C5: a file with one class, one method and one top-level
function produces all five nodes and the four definition edges. -/
theorem C5_graph_builder_witness :
    visitFacts
      (build_graph_from_tree (.file ⟨"a.py", some "/r/a.py", some "python",
        some (.std [⟨"A", 1, [⟨"m", 2, [], 1⟩]⟩] [⟨"f", 3, [], 1⟩]),
        some "tree_sitter", none⟩))
      (.file ⟨"a.py", some "/r/a.py", some "python",
        some (.std [⟨"A", 1, [⟨"m", 2, [], 1⟩]⟩] [⟨"f", 3, [], 1⟩]),
        some "tree_sitter", none⟩, none) :=
  C5_graph_builder _ _ (by simp [visits])

/-! ## Generic definitions extractor, Java branch (traversal_layer.py)

The externally supplied tree-sitter tree is modelled by `TSNode` carrying the
capability surface the extractor uses: `type`, `start_point`, `end_point`,
byte span, named fields (`child_by_field_name`) and `children`.
`extract_definitions` is embedded specialised to `lang_name = "java"`; the
branches for the other languages are condition-false and drop out.  In the
Java method branch the source (traversal_layer.py line 114) evaluates
`node_text(name_name)` while building the function dict, and `name_name` is
an undefined variable: Python raises `NameError` there, before anything is
appended.  The embedding returns that as `Except.error`. -/

/-- Model of a tree-sitter node. -/
inductive TSNode where
  | mk (type : String) (startRow startCol endRow endCol startByte endByte : Nat)
       (fields : List (String × TSNode)) (children : List TSNode)

/-- Node kind string. -/
def TSNode.type : TSNode → String
  | .mk t _ _ _ _ _ _ _ _ => t

/-- Row of `start_point`. -/
def TSNode.startRow : TSNode → Nat
  | .mk _ sr _ _ _ _ _ _ _ => sr

/-- `start_byte`. -/
def TSNode.startByte : TSNode → Nat
  | .mk _ _ _ _ _ sb _ _ _ => sb

/-- `end_byte`. -/
def TSNode.endByte : TSNode → Nat
  | .mk _ _ _ _ _ _ eb _ _ => eb

/-- Named fields. -/
def TSNode.fields : TSNode → List (String × TSNode)
  | .mk _ _ _ _ _ _ _ fs _ => fs

/-- Children. -/
def TSNode.children : TSNode → List TSNode
  | .mk _ _ _ _ _ _ _ _ cs => cs

/-- `node.child_by_field_name(name)`. -/
def child_by_field_name (n : TSNode) (name : String) : Option TSNode :=
  n.fields.lookup name

/-- Helper `node_text`: the byte slice decoded (decoding errors ignored). -/
def node_text (code : List Char) (n : TSNode) : String :=
  String.mk ((code.drop n.startByte).take (n.endByte - n.startByte))

/-- Accumulated `classes` and `functions_outside` lists. -/
structure StdAcc where
  classes : List ClassD
  functions_outside : List FuncD
deriving DecidableEq, Repr

/-- Embedding of the recursive `walk(node, current_class)` specialised to
Java.  `current_class` is the index of the enclosing class dict inside
`classes` (Python aliases the dict object).  The Java functions branch
matches `method_declaration`/`constructor_declaration`; with a `name` field
present it evaluates `node_text(name_name)` inside the dict literal — a
`NameError`, since only `name_node` is defined — so the walk raises before
recording anything; had it succeeded, the dict would be appended to the
enclosing class's `functions` or to `functions_outside`. -/
def walkJava (code : List Char) : TSNode → Option Nat → StdAcc → Except String StdAcc
  | .mk ty sr _ _ _ _ _ fields cs, cur, st =>
    let curSt :=
      if ty = "class_declaration" then
        match fields.lookup "name" with
        | some nn => (some st.classes.length,
            { st with classes := st.classes ++ [⟨node_text code nn, sr + 1, []⟩] })
        | none => (cur, st)
      else (cur, st)
    if ty = "method_declaration" ∨ ty = "constructor_declaration" then
      match fields.lookup "name" with
      | some _ => .error "NameError: name 'name_name' is not defined"
      | none => go code cs curSt.1 curSt.2
    else go code cs curSt.1 curSt.2
where go : List Char → List TSNode → Option Nat → StdAcc → Except String StdAcc
  | _, [], _, st => .ok st
  | cd, c :: cs, cur, st =>
    match walkJava cd c cur st with
    | .ok st' => go cd cs cur st'
    | .error e => .error e

/-- Embedding of `extract_definitions(tree, code_bytes, "java")`: the walk
from the root with no enclosing class, returning the
`{classes, functions}` record on success. -/
def extract_definitions_java (root : TSNode) (code : List Char) : Except String Defs :=
  (walkJava code root none ⟨[], []⟩).map fun st => Defs.std st.classes st.functions_outside

/-- Source text of the failing input. -/
def javaCode : List Char := "class A { void m() {} }".toList

/-- Tree-sitter shape of `class A { void m() {} }`: a `method_declaration`
with a `name` field inside a `class_declaration` with a `name` field. -/
def javaExample : TSNode :=
  .mk "program" 0 0 0 24 0 24 []
    [.mk "class_declaration" 0 0 0 23 0 23
      [("name", .mk "identifier" 0 6 0 7 6 7 [] [])]
      [.mk "class_body" 0 8 0 23 8 23 []
        [.mk "method_declaration" 0 10 0 21 10 21
          [("name", .mk "identifier" 0 15 0 16 15 16 [] [])]
          []]]]

/-- C9 fails on the code: for a Java tree containing a `method_declaration`
with a `name` field, the extractor raises
`NameError: name 'name_name' is not defined` (traversal_layer.py line 114
reads the undefined variable `name_name` instead of `name_node`), so no
FunctionDef is recorded and the extraction does not complete; the walker then
stores this message as the file's `parse_error`. -/
theorem C9_java_extractor_namerror :
    extract_definitions_java javaExample javaCode =
      .error "NameError: name 'name_name' is not defined" ∧
    process_file (fun _ bytes => extract_definitions_java javaExample bytes)
      "A.java" (.ok javaCode) "/A.java" =
      ⟨"A.java", some "/A.java", none, none, none,
        some "NameError: name 'name_name' is not defined"⟩ := by
  constructor
  · rfl
  · rfl
